import Mathlib

/-!
Verification of the text-chunking core of the `ai-nexus` repository
(`textsplitter` package: `sentence_splitter.go`, `paragraph_splitter.go`,
`tokenizer.go`).

Strings are modelled as `List Char` (Go strings are UTF-8 byte sequences;
the code only ever splits at rune boundaries, so a rune sequence is a
faithful model; byte-based sizes use `Char.utf8Size`).  Go's `int` sizes are
modelled as `Nat` where the code keeps them non-negative (token counts and
byte lengths are non-negative; the constructors force positive chunk sizes).
Unbounded recursion / loops in the Go code are modelled with an explicit
fuel parameter; a `none` result means the fuel ran out, and a theorem that a
fixed fuel always suffices is the model-level statement that the Go loop
terminates.  Go `panic` is modelled as a distinguished result value.
-/

namespace AINexus

/-- Go `unicode.IsSpace`: the Unicode White_Space property, which is what
`strings.TrimSpace` and `strings.Fields` test. -/
def goIsSpace (c : Char) : Bool :=
  c = ' ' || c = '\t' || c = '\n' || (c = Char.ofNat 0x0B) || (c = Char.ofNat 0x0C) ||
  c = '\r' || (c = Char.ofNat 0x85) || (c = Char.ofNat 0xA0) ||
  (c = Char.ofNat 0x1680) ||
  (0x2000 ≤ c.toNat && c.toNat ≤ 0x200A) ||
  (c = Char.ofNat 0x2028) || (c = Char.ofNat 0x2029) ||
  (c = Char.ofNat 0x202F) || (c = Char.ofNat 0x205F) ||
  (c = Char.ofNat 0x3000)

/-- Go `strings.TrimSpace`: drop leading and trailing White_Space runes. -/
def trimSpace (t : List Char) : List Char :=
  ((t.dropWhile goIsSpace).reverse.dropWhile goIsSpace).reverse

/-- Byte length of a Go string (sum of the UTF-8 sizes of its runes);
Go `len(s)` on a string. -/
def utf8Len (t : List Char) : Nat :=
  (t.map Char.utf8Size).sum

/-- Helper for `fieldsCount`: `afterSpace` is true at the start of the
string and right after a White_Space rune; each non-space rune seen in that
state starts a new field. -/
def fieldsCountAux : Bool → List Char → Nat
  | _, [] => 0
  | afterSpace, c :: cs =>
    if goIsSpace c then fieldsCountAux true cs
    else (if afterSpace then 1 else 0) + fieldsCountAux false cs

/-- `len(strings.Fields(t))`: the number of maximal runs of non-space runes.
This is the size measure of `SimpleTokenizer` (`tokenizer.go`:
`Encode(text) = strings.Fields(text)`, and the splitter only ever uses
`len(Encode(text))`). -/
def fieldsCount (t : List Char) : Nat := fieldsCountAux true t

/-- The sentence-terminator runes of `DefaultChunkingRegex`
(`[^,.;。？！]+[,.;。？！]?|[,.;。？！]` in `sentence_splitter.go`). -/
def isTerminator (c : Char) : Bool :=
  c = ',' || c = '.' || c = ';' || c = '。' || c = '？' || c = '！'

/-- Helper for `splitByRegexDefault`: `acc` holds the current run of
non-terminator runes in reverse. -/
def splitByRegexAux : List Char → List Char → List (List Char)
  | acc, [] => if acc.isEmpty then [] else [acc.reverse]
  | acc, c :: rest =>
    if isTerminator c then (acc.reverse ++ [c]) :: splitByRegexAux [] rest
    else splitByRegexAux (c :: acc) rest

/-- Modelled from the spec: `SplitByRegex`/`RegexSplitterStrategy.Split`
with the repository's `DefaultChunkingRegex` — these helpers live in a file
of the `textsplitter` package that is not under `src/`; only their call
sites in `sentence_splitter.go` are.  The pattern
`[^,.;。？！]+[,.;。？！]?|[,.;。？！]` matches, left to right, a maximal run
of non-terminators with one optional trailing terminator, or a lone
terminator; per the spec (§4.2) "each match boundary retains trailing
punctuation with its preceding fragment (no information loss —
concatenating sub-fragments losslessly reconstructs the input)". -/
def splitByRegexDefault (t : List Char) : List (List Char) :=
  splitByRegexAux [] t

/-- Helper for `splitBySep`: `sep = s0 :: srest` (the separators used are
`"\n\n\n"` and `" "`, never empty); `acc` holds the current piece in
reverse.  The first argument is structural-recursion fuel: every step
consumes at least one input rune, so starting the fuel at the input length
(as `splitBySep` does) the exhaustion clause is never reached; its value
is chosen so that losslessness holds for every fuel. -/
def splitBySepAux (s0 : Char) (srest : List Char) : Nat → List Char → List Char → List (List Char)
  | _, acc, [] => if acc.isEmpty then [] else [acc.reverse]
  | 0, acc, t => if acc.isEmpty then [t] else [acc.reverse ++ t]
  | Nat.succ fuel, acc, c :: rest =>
    if (s0 :: srest).isPrefixOf (c :: rest) then
      (acc.reverse ++ (s0 :: srest)) ::
        splitBySepAux s0 srest fuel [] ((c :: rest).drop (srest.length + 1))
    else
      splitBySepAux s0 srest fuel (c :: acc) rest

/-- Modelled from the spec: `SplitBySep` — in a `textsplitter` file not
under `src/`.  Splits at each occurrence of the separator, keeping the
separator attached to the end of the preceding piece, so that per the
spec's reconstruction property (§8) "concatenating all leaf fragments
(before merging) in order reproduces the original input exactly". -/
def splitBySep (sep : List Char) (t : List Char) : List (List Char) :=
  match sep with
  | [] => [t]
  | s0 :: srest => splitBySepAux s0 srest t.length [] t

/-- Modelled from the spec: `SplitByChar` — in a `textsplitter` file not
under `src/`.  Per the spec (§4.3 step 2): "single-character split
(guaranteed to always yield >1 candidate for any fragment of length >1, or
exactly the original fragment if length ≤1)". -/
def splitByChar (t : List Char) : List (List Char) :=
  t.map (fun c => [c])

/-- `DefaultParagraphSep = "\n\n\n"` (`sentence_splitter.go`). -/
def defaultParagraphSep : List Char := ['\n', '\n', '\n']

/-- `DefaultSeparator = " "` (`sentence_splitter.go`). -/
def defaultSeparator : List Char := [' ']

/-- `SentenceSplitter.getSplitsByFns` (`sentence_splitter.go` lines
240-256) with the configuration produced by `NewSentenceSplitter`: primary
chain `[SplitBySep(ParagraphSeparator), SplitterStrategy.Split]` (the
default strategy is `RegexSplitterStrategy(DefaultChunkingRegex)`), then
the fallback chain `[SplitByRegex(SecondaryChunkingRegex),
SplitBySep(Separator), SplitByChar()]`; the first primary splitter with
more than one piece wins with `isSentence = true`, otherwise the first
fallback splitter with more than one piece — or the last fallback's result
— with `isSentence = false`. -/
def getSplitsByFns (t : List Char) : List (List Char) × Bool :=
  let p1 := splitBySep defaultParagraphSep t
  if p1.length > 1 then (p1, true)
  else
    let p2 := splitByRegexDefault t
    if p2.length > 1 then (p2, true)
    else
      let f1 := splitByRegexDefault t
      if f1.length > 1 then (f1, false)
      else
        let f2 := splitBySep defaultSeparator t
        if f2.length > 1 then (f2, false)
        else (splitByChar t, false)

/-- `textSplit` (`sentence_splitter.go` lines 17-21). -/
structure TextSplit where
  text : List Char
  isSentence : Bool
  tokenSize : Nat
deriving DecidableEq, Repr

/-- The `for _, splitStr := range textSplitsByFns` loop inside
`SentenceSplitter.split` (`sentence_splitter.go` lines 120-132), with the
recursive call passed in as `recurse`. -/
def splitPieces (measure : List Char → Nat) (chunkSize : Nat)
    (recurse : List Char → Option (List TextSplit)) :
    List (List Char) → Bool → Option (List TextSplit)
  | [], _ => some []
  | p :: ps, isSentence =>
    let tokenSize := measure p
    if tokenSize ≤ chunkSize then do
      let rest ← splitPieces measure chunkSize recurse ps isSentence
      some (⟨p, isSentence, tokenSize⟩ :: rest)
    else do
      let recursiveSplits ← recurse p
      let rest ← splitPieces measure chunkSize recurse ps isSentence
      some (recursiveSplits ++ rest)

/-- `SentenceSplitter.split` (`sentence_splitter.go` lines 111-134), with
`measure text = len(Tokenizer.Encode(text))` (`getTokenSize`).  The Go
function recurses with no structural bound; `fuel` counts the permitted
recursion depth and `none` models non-termination (fuel exhaustion at every
depth). -/
def splitFuel (measure : List Char → Nat) (chunkSize : Nat) :
    Nat → List Char → Option (List TextSplit)
  | 0, _ => none
  | Nat.succ fuel, text =>
    let tokenSize := measure text
    if tokenSize ≤ chunkSize then
      some [⟨text, true, tokenSize⟩]
    else
      let sb := getSplitsByFns text
      splitPieces measure chunkSize (splitFuel measure chunkSize fuel) sb.1 sb.2

/-- `bufItem` — the `(text, len)` pairs of the merge buffer
(`sentence_splitter.go` lines 139-142). -/
structure BufItem where
  text : List Char
  len : Nat
deriving DecidableEq, Repr

/-- Sum of the recorded lengths of the buffer items. -/
def sumLens (items : List BufItem) : Nat :=
  (items.map BufItem.len).sum

/-- The text of a chunk: the concatenation of its buffer items' texts
(the `strings.Builder` loop in `closeChunk` and after the merge loop). -/
def chunkText (items : List BufItem) : List Char :=
  (items.map BufItem.text).flatten

/-- The backward overlap walk of `closeChunk` (`sentence_splitter.go`
lines 160-174): walking `lastChunk` from its end, prepend items while the
accumulated length stays within `ChunkOverlap`; stop at the first item
that would exceed it.  The first argument is the reversed `lastChunk`;
returns the new accumulator and its length. -/
def overlapWalk (chunkOverlap : Nat) : List BufItem → List BufItem → Nat → List BufItem × Nat
  | [], acc, accLen => (acc, accLen)
  | item :: rest, acc, accLen =>
    if accLen + item.len ≤ chunkOverlap then
      overlapWalk chunkOverlap rest (item :: acc) (accLen + item.len)
    else (acc, accLen)

/-- The seeded accumulator after `closeChunk`: the maximal suffix of the
just-closed chunk whose total length fits in `ChunkOverlap`. -/
def overlapSeed (chunkOverlap : Nat) (lastChunk : List BufItem) : List BufItem × Nat :=
  overlapWalk chunkOverlap lastChunk.reverse [] 0

/-- The relation that holds between consecutive chunks emitted by the
merge loop (stated over their buffer-item lists, i.e. before the chunk
strings are built and trimmed): the later chunk is the earlier chunk's
overlap seed with `k` leading items evicted, followed by at least one
appended leaf, and items are evicted (`k > 0`) only because with one
eviction fewer the first appended leaf would not have fit the chunk
size. -/
def overlapRel (chunkSize chunkOverlap : Nat) (a b : List BufItem) : Prop :=
  ∃ (k : Nat) (a0 : BufItem) (ap : List BufItem),
    b = ((overlapSeed chunkOverlap a).1).drop k ++ a0 :: ap ∧
    (k = 0 ∨
      sumLens (((overlapSeed chunkOverlap a).1).drop (k - 1)) + a0.len > chunkSize)

/-- The front-eviction loop (`sentence_splitter.go` lines 193-198): while
the accumulator is non-empty and the incoming split still does not fit,
pop items from the front.  `curLen` is kept in sync exactly as the Go code
does (`curChunkLen -= removed.len`; the merge invariant keeps `curLen`
equal to `sumLens`, so Nat subtraction agrees with Go's int subtraction). -/
def evictFront (chunkSize tokenSize : Nat) : List BufItem → Nat → List BufItem × Nat
  | [], curLen => ([], curLen)
  | item :: rest, curLen =>
    if curLen + tokenSize > chunkSize then
      evictFront chunkSize tokenSize rest (curLen - item.len)
    else (item :: rest, curLen)

/-- Result of `SentenceSplitter.merge`: the Go code panics ("Single token
exceeded chunk size", line 185) when a split's size exceeds the chunk
size. -/
inductive MergeResult where
  | panicked
  | ok (chunks : List (List BufItem))
deriving DecidableEq, Repr

/-- The main loop of `SentenceSplitter.merge` (`sentence_splitter.go`
lines 177-219), keeping each emitted chunk as its list of buffer items
(the Go code emits `chunkText` of the same list; see
`SentenceSplitter.merge` below).  One unit of fuel is one iteration of the
Go `for splitIdx < len(splits)` loop; `none` models fuel exhaustion.
State: emitted `chunks`, current accumulator `curChunk` with its length
`curChunkLen`, and the `newChunk` flag. -/
def mergeFuel (chunkSize chunkOverlap : Nat) :
    Nat → List (List BufItem) → List BufItem → Nat → Bool → List TextSplit →
    Option MergeResult
  | _, chunks, curChunk, _, newChunk, [] =>
    -- after the loop: emit the accumulator unless the chunk is still new
    some (.ok (if newChunk then chunks else chunks ++ [curChunk]))
  | 0, _, _, _, _, _ :: _ => none
  | Nat.succ fuel, chunks, curChunk, curChunkLen, newChunk, curSplit :: rest =>
    if curSplit.tokenSize > chunkSize then some .panicked
    else if curChunkLen + curSplit.tokenSize > chunkSize ∧ newChunk = false then
      -- closeChunk: emit, then seed the new accumulator with overlap
      let seeded := overlapSeed chunkOverlap curChunk
      mergeFuel chunkSize chunkOverlap fuel (chunks ++ [curChunk]) seeded.1 seeded.2 true
        (curSplit :: rest)
    else
      -- if a new chunk inherited overlap and the split does not fit, evict from the front
      let evicted :=
        if newChunk ∧ curChunkLen + curSplit.tokenSize > chunkSize then
          evictFront chunkSize curSplit.tokenSize curChunk curChunkLen
        else (curChunk, curChunkLen)
      if curSplit.isSentence ∨ evicted.2 + curSplit.tokenSize ≤ chunkSize ∨ newChunk then
        mergeFuel chunkSize chunkOverlap fuel chunks (evicted.1 ++ [⟨curSplit.text, curSplit.tokenSize⟩])
          (evicted.2 + curSplit.tokenSize) false rest
      else
        let seeded := overlapSeed chunkOverlap evicted.1
        mergeFuel chunkSize chunkOverlap fuel (chunks ++ [evicted.1]) seeded.1 seeded.2 true
          (curSplit :: rest)

/-- Fuel that always suffices for the merge loop (proved below): each
iteration either consumes a split or flips `newChunk` from false to true
while keeping the splits, and a close is always followed by an append. -/
def mergeFuelBound (splits : List TextSplit) : Nat := 2 * splits.length + 1

/-- `SentenceSplitter.merge` (`sentence_splitter.go` lines 136-222):
the string chunks are the concatenated texts of the buffer items of each
emitted chunk, starting from an empty accumulator with `newChunk = true`. -/
def merge (chunkSize chunkOverlap : Nat) (splits : List TextSplit) :
    Option (List (List Char)) :=
  match mergeFuel chunkSize chunkOverlap (mergeFuelBound splits) [] [] 0 true splits with
  | none => none
  | some .panicked => none
  | some (.ok chunks) => some (chunks.map chunkText)

/-- `SentenceSplitter.postprocessChunks` (`sentence_splitter.go` lines
224-234): trim each chunk and drop the ones that become empty. -/
def postprocessChunks (chunks : List (List Char)) : List (List Char) :=
  (chunks.map trimSpace).filter (fun c => ¬ c.isEmpty)

/-- Fuel that suffices for every terminating run of `split` (each level of
recursion is on a strictly shorter string unless the recursion has already
entered the non-terminating single-piece loop, which no fuel escapes). -/
def splitFuelBound (text : List Char) : Nat := text.length + 1

/-- `SentenceSplitter.splitText` / `SplitText` (`sentence_splitter.go`
lines 97-109) for a splitter with size measure `measure`, chunk size
`chunkSize` and overlap `chunkOverlap` (the remaining configuration is the
one installed by `NewSentenceSplitter`, already baked into
`getSplitsByFns`).  `none` models non-termination of the recursive `split`
or the `merge` panic. -/
def splitText (measure : List Char → Nat) (chunkSize chunkOverlap : Nat)
    (text : List Char) : Option (List (List Char)) :=
  if text.isEmpty then some [text]
  else do
    let splits ← splitFuel measure chunkSize (splitFuelBound text) text
    let chunks ← merge chunkSize chunkOverlap splits
    some (postprocessChunks chunks)

/-- `DefaultChunkSize` (`sentence_splitter.go` line 9). -/
def DefaultChunkSize : Int := 1024

/-- `DefaultChunkOverlap` (`sentence_splitter.go` line 10). -/
def DefaultChunkOverlap : Int := 200

/-- The configuration fields of `SentenceSplitter` that
`NewSentenceSplitter` computes from its arguments (the separator, regex
and split-function fields are always set to the package defaults and are
baked into `getSplitsByFns` above). -/
structure SentenceSplitterConfig where
  ChunkSize : Int
  ChunkOverlap : Int
  measure : List Char → Nat

/-- `NewSentenceSplitter` (`sentence_splitter.go` lines 41-73): a
non-positive `chunkSize` falls back to `DefaultChunkSize`; `chunkOverlap`
is stored as passed ("chunkOverlap can be 0. We do not default it if 0 is
passed."); a nil tokenizer falls back to `SimpleTokenizer`, whose size
measure is `fieldsCount`. -/
def NewSentenceSplitter (chunkSize chunkOverlap : Int)
    (tokenizer : Option (List Char → Nat)) : SentenceSplitterConfig :=
  { ChunkSize := if chunkSize ≤ 0 then DefaultChunkSize else chunkSize
    ChunkOverlap := chunkOverlap
    measure := tokenizer.getD fieldsCount }

/-- Go `strings.Split(t, string(c))` for a one-rune separator (the
`ParagraphSplitter` separator is always `"\n"`); the separator is not kept
and empty pieces are kept. -/
def splitOnCharAux (sep : Char) : List Char → List Char → List (List Char)
  | acc, [] => [acc.reverse]
  | acc, d :: rest =>
    if d = sep then acc.reverse :: splitOnCharAux sep [] rest
    else splitOnCharAux sep (d :: acc) rest

/-- Go `strings.Split(t, string(sep))` for a one-rune separator. -/
def splitOnChar (sep : Char) (t : List Char) : List (List Char) :=
  splitOnCharAux sep [] t

/-- The separator installed by `NewParagraphSplitter`
(`paragraph_splitter.go` line 21): always `"\n"`, byte length 1. -/
def nlSep : List Char := ['\n']

/-- Go `strings.Join(ps, "\n")`: the pieces separated by single newlines. -/
def joinNL : List (List Char) → List Char
  | [] => []
  | [p] => p
  | p :: q :: rest => p ++ nlSep ++ joinNL (q :: rest)

/-- The greedy rune-count of `splitOversizedParagraph`
(`paragraph_splitter.go` lines 203-212): take runes while the byte count
stays within the remaining budget. -/
def greedyTakeCount (budget : Nat) : List Char → Nat
  | [] => 0
  | c :: cs =>
    if c.utf8Size ≤ budget then 1 + greedyTakeCount (budget - c.utf8Size) cs
    else 0

/-- The loop of `ParagraphSplitter.splitOversizedParagraph`, with
structural-recursion fuel: every piece consumes at least one rune, so fuel
equal to the rune count (as the wrapper passes) never runs out; the
exhaustion clause keeps reconstruction true for every fuel. -/
def splitOversizedAux (maxChunkSize : Nat) : Nat → List Char → List (List Char)
  | _, [] => []
  | 0, t => [t]
  | Nat.succ fuel, c :: cs =>
    let takeRunes := greedyTakeCount maxChunkSize (c :: cs)
    let takeRunes' := if takeRunes = 0 then 1 else takeRunes
    (c :: cs).take takeRunes' :: splitOversizedAux maxChunkSize fuel ((c :: cs).drop takeRunes')

/-- `ParagraphSplitter.splitOversizedParagraph` (`paragraph_splitter.go`
lines 162-224): repeatedly take the maximal rune prefix whose byte length
fits `MaxChunkSize` (at least one rune per piece, so a single rune wider
than the budget still becomes its own piece). -/
def splitOversizedParagraph (maxChunkSize : Nat) (t : List Char) : List (List Char) :=
  splitOversizedAux maxChunkSize t.length t

/-- The packing state of `ParagraphSplitter.SplitText`: emitted chunks,
the current chunk (list of paragraphs) and its running byte size. -/
structure PSt where
  chunks : List (List Char)
  cur : List (List Char)
  curSize : Nat
deriving DecidableEq, Repr

/-- One iteration of the sub-part loop of `ParagraphSplitter.SplitText`
(`paragraph_splitter.go` lines 82-111). -/
def addSubPart (maxChunkSize : Nat) (st : PSt) (subP : List Char) : PSt :=
  if st.curSize + utf8Len subP + utf8Len nlSep > maxChunkSize then
    if st.cur.isEmpty then
      { chunks := st.chunks, cur := [subP], curSize := utf8Len subP }
    else
      let lastPara := st.cur.getLastD []
      if utf8Len lastPara + utf8Len subP + utf8Len nlSep > maxChunkSize then
        { chunks := st.chunks ++ [joinNL st.cur], cur := [subP], curSize := utf8Len subP }
      else
        { chunks := st.chunks ++ [joinNL st.cur], cur := [lastPara, subP],
          curSize := utf8Len lastPara + utf8Len nlSep + utf8Len subP }
  else
    { chunks := st.chunks, cur := st.cur ++ [subP],
      curSize := st.curSize + (if st.cur.isEmpty then 0 else utf8Len nlSep) + utf8Len subP }

/-- The oversized-paragraph branch of `ParagraphSplitter.SplitText`
(`paragraph_splitter.go` lines 55-113): flush the accumulating chunk
keeping its last paragraph as overlap, then feed the hard-split pieces
through the sub-part packing loop. -/
def addOversized (maxChunkSize : Nat) (st : PSt) (p : List Char) : PSt :=
  let st' :=
    if st.cur.isEmpty then st
    else
      let lastPara := st.cur.getLastD []
      { chunks := st.chunks ++ [joinNL st.cur], cur := [lastPara], curSize := utf8Len lastPara }
  (splitOversizedParagraph maxChunkSize p).foldl (addSubPart maxChunkSize) st'

/-- The normal-paragraph branch of `ParagraphSplitter.SplitText`
(`paragraph_splitter.go` lines 115-151). -/
def addNormalParagraph (maxChunkSize : Nat) (st : PSt) (p : List Char) : PSt :=
  let addedSize := utf8Len p + (if st.cur.isEmpty then 0 else utf8Len nlSep)
  if st.curSize + addedSize > maxChunkSize then
    if st.cur.isEmpty then
      { chunks := st.chunks ++ [joinNL st.cur], cur := [p], curSize := utf8Len p }
    else
      let lastPara := st.cur.getLastD []
      let overlapSize := utf8Len lastPara + utf8Len nlSep + utf8Len p
      if overlapSize > maxChunkSize then
        { chunks := st.chunks ++ [joinNL st.cur], cur := [p], curSize := utf8Len p }
      else
        { chunks := st.chunks ++ [joinNL st.cur], cur := [lastPara, p], curSize := overlapSize }
  else
    { chunks := st.chunks, cur := st.cur ++ [p], curSize := st.curSize + addedSize }

/-- One iteration of the main paragraph loop of
`ParagraphSplitter.SplitText`. -/
def addParagraph (maxChunkSize : Nat) (st : PSt) (p : List Char) : PSt :=
  if utf8Len p > maxChunkSize then addOversized maxChunkSize st p
  else addNormalParagraph maxChunkSize st p

/-- `ParagraphSplitter.SplitText` (`paragraph_splitter.go` lines 26-160)
for a splitter with the given `MaxChunkSize` (the separator is always
`"\n"`): split on newlines, trim, drop empties, then pack greedily with
single-paragraph overlap. -/
def paragraphSplitText (maxChunkSize : Nat) (text : List Char) : List (List Char) :=
  if text.isEmpty then []
  else
    let paragraphs := ((splitOnChar '\n' text).map trimSpace).filter (fun p => ¬ p.isEmpty)
    if paragraphs.isEmpty then []
    else
      let st := paragraphs.foldl (addParagraph maxChunkSize) ⟨[], [], 0⟩
      if st.cur.isEmpty then st.chunks else st.chunks ++ [joinNL st.cur]

/-- `NewParagraphSplitter` (`paragraph_splitter.go` lines 15-23): a
non-positive max size falls back to `DefaultChunkSize` (1024). -/
def NewParagraphSplitter (maxChunkSize : Int) : Nat :=
  if maxChunkSize ≤ 0 then 1024 else maxChunkSize.toNat

/-- A size measure that charges two units per rune: a tokenizer under
which even a single character measures more than a chunk size of 1
(the mismatched-configuration scenario of spec §7). -/
def doubleCharMeasure (t : List Char) : Nat := 2 * t.length

/-- A size measure that is not sub-additive: single runes cost 1 but any
longer string costs 5, so concatenating two fitting leaves can produce a
chunk that measures more than the chunk size. -/
def spikeMeasure (t : List Char) : Nat := if t.length ≤ 1 then 1 else 5

/-- A measure is sub-additive when concatenation never measures more than
the sum of the measures of the parts (true of the default whitespace
tokenizer `fieldsCount`, not required of arbitrary tokenizers — spec
§4.1 explicitly allows non-additive measures). -/
def Subadditive (m : List Char → Nat) : Prop :=
  ∀ x y : List Char, m (x ++ y) ≤ m x + m y

/-- A measure never grows when a chunk is whitespace-trimmed (true of the
default whitespace tokenizer `fieldsCount`). -/
def TrimStable (m : List Char → Nat) : Prop :=
  ∀ t : List Char, m (trimSpace t) ≤ m t

section Lemmas

/-! ### Losslessness of the splitting functions -/

theorem splitBySepAux_flatten_nil (s0 : Char) (srest : List Char) (fuel : Nat)
    (acc : List Char) :
    (splitBySepAux s0 srest fuel acc []).flatten = acc.reverse := by
  cases fuel with
  | zero =>
    show (if acc.isEmpty then ([] : List (List Char)) else [acc.reverse]).flatten = acc.reverse
    by_cases h : acc.isEmpty
    · simp_all [List.isEmpty_iff]
    · simp [h]
  | succ n =>
    show (if acc.isEmpty then ([] : List (List Char)) else [acc.reverse]).flatten = acc.reverse
    by_cases h : acc.isEmpty
    · simp_all [List.isEmpty_iff]
    · simp [h]

theorem splitBySepAux_flatten (s0 : Char) (srest : List Char) :
    ∀ (fuel : Nat) (acc t : List Char),
      (splitBySepAux s0 srest fuel acc t).flatten = acc.reverse ++ t := by
  intro fuel
  induction fuel with
  | zero =>
    intro acc t
    cases t with
    | nil => simpa using splitBySepAux_flatten_nil s0 srest 0 acc
    | cons c rest =>
      show (if acc.isEmpty then [c :: rest] else [acc.reverse ++ c :: rest]).flatten = _
      by_cases h : acc.isEmpty
      · simp_all [List.isEmpty_iff]
      · simp [h]
  | succ n ih =>
    intro acc t
    cases t with
    | nil => simpa using splitBySepAux_flatten_nil s0 srest (n + 1) acc
    | cons c rest =>
      show (if (s0 :: srest).isPrefixOf (c :: rest) then
          (acc.reverse ++ (s0 :: srest)) ::
            splitBySepAux s0 srest n [] ((c :: rest).drop (srest.length + 1))
        else splitBySepAux s0 srest n (c :: acc) rest).flatten = _
      by_cases hpre : (s0 :: srest).isPrefixOf (c :: rest)
      · rw [if_pos hpre]
        have hp : (s0 :: srest) <+: (c :: rest) := (List.isPrefixOf_iff_prefix).mp hpre
        obtain ⟨u, hu⟩ := hp
        have hdrop : (c :: rest).drop (srest.length + 1) = u := by
          have hlen : (s0 :: srest).length = srest.length + 1 := by simp
          rw [← hu, ← hlen, List.drop_left]
        have ihu := ih [] u
        simp only [List.reverse_nil, List.nil_append] at ihu
        simp only [List.flatten_cons, hdrop, ihu, List.append_assoc]
        simp [← hu]
      · rw [if_neg hpre]
        simp [ih]

theorem splitBySep_flatten (sep t : List Char) : (splitBySep sep t).flatten = t := by
  cases sep with
  | nil => simp [splitBySep]
  | cons s0 srest => simpa using splitBySepAux_flatten s0 srest t.length [] t

theorem splitByRegexAux_flatten :
    ∀ (acc t : List Char), (splitByRegexAux acc t).flatten = acc.reverse ++ t := by
  intro acc t
  induction t generalizing acc with
  | nil =>
    rw [splitByRegexAux]
    by_cases h : acc.isEmpty
    · simp_all [List.isEmpty_iff]
    · simp [h]
  | cons c rest ih =>
    rw [splitByRegexAux]
    by_cases h : isTerminator c
    · simp [h, ih, List.append_assoc]
    · simp [h, ih]

theorem splitByRegexDefault_flatten (t : List Char) :
    (splitByRegexDefault t).flatten = t := by
  simpa using splitByRegexAux_flatten [] t

theorem splitByChar_flatten (t : List Char) : (splitByChar t).flatten = t := by
  induction t with
  | nil => rfl
  | cons c cs ih => simp [splitByChar] at ih ⊢; exact ih

theorem getSplitsByFns_flatten (t : List Char) :
    ((getSplitsByFns t).1).flatten = t := by
  simp only [getSplitsByFns]
  repeat' split
  all_goals
    first
    | exact splitBySep_flatten defaultParagraphSep t
    | exact splitBySep_flatten defaultSeparator t
    | exact splitByRegexDefault_flatten t
    | exact splitByChar_flatten t

/-! ### Reconstruction: the leaves of `split` concatenate to the input -/

theorem splitPieces_flatten (m : List Char → Nat) (cs : Nat)
    (recurse : List Char → Option (List TextSplit))
    (IH : ∀ t leaves, recurse t = some leaves →
        (leaves.map TextSplit.text).flatten = t) :
    ∀ (ps : List (List Char)) (b : Bool) (leaves : List TextSplit),
      splitPieces m cs recurse ps b = some leaves →
      (leaves.map TextSplit.text).flatten = ps.flatten := by
  intro ps
  induction ps with
  | nil =>
    intro b leaves h
    rw [splitPieces] at h
    cases h
    simp
  | cons p ps ih =>
    intro b leaves h
    rw [splitPieces] at h
    by_cases hfit : m p ≤ cs
    · simp only [if_pos hfit] at h
      cases hrest : splitPieces m cs recurse ps b with
      | none => rw [hrest] at h; simp at h
      | some rest =>
        rw [hrest] at h
        simp only [Option.bind_eq_bind, Option.some_bind, Option.some.injEq] at h
        subst h
        simp [ih b rest hrest]
    · simp only [if_neg hfit] at h
      cases hrec : recurse p with
      | none => rw [hrec] at h; simp at h
      | some recSplits =>
        rw [hrec] at h
        cases hrest : splitPieces m cs recurse ps b with
        | none => rw [hrest] at h; simp at h
        | some rest =>
          rw [hrest] at h
          simp only [Option.bind_eq_bind, Option.some_bind, Option.some.injEq] at h
          subst h
          simp [IH p recSplits hrec, ih b rest hrest]

theorem splitFuel_flatten (m : List Char → Nat) (cs : Nat) :
    ∀ (fuel : Nat) (t : List Char) (leaves : List TextSplit),
      splitFuel m cs fuel t = some leaves →
      (leaves.map TextSplit.text).flatten = t := by
  intro fuel
  induction fuel with
  | zero => intro t leaves h; rw [splitFuel] at h; simp at h
  | succ n ihn =>
    intro t leaves h
    rw [splitFuel] at h
    by_cases hfit : m t ≤ cs
    · simp only [if_pos hfit, Option.some.injEq] at h
      subst h
      simp
    · simp only [if_neg hfit] at h
      have hflat := splitPieces_flatten m cs (splitFuel m cs n) ihn
        (getSplitsByFns t).1 (getSplitsByFns t).2 leaves h
      rw [hflat, getSplitsByFns_flatten]

/-! ### The single-leaf path of `splitText` -/

theorem splitFuel_of_fit (m : List Char → Nat) (cs fuel : Nat) (t : List Char)
    (hfit : m t ≤ cs) :
    splitFuel m cs (fuel + 1) t = some [⟨t, true, m t⟩] := by
  rw [splitFuel]
  simp [hfit]

theorem merge_single (cs ov n : Nat) (t : List Char) (hfit : n ≤ cs) :
    merge cs ov [⟨t, true, n⟩] = some [t] := by
  have hnlt : ¬ cs < n := by omega
  simp only [merge, mergeFuelBound, List.length_cons, List.length_nil]
  rw [show 2 * (0 + 1) + 1 = 2 + 1 from rfl]
  rw [mergeFuel]
  simp [mergeFuel, chunkText, hnlt]

theorem splitText_single_leaf (m : List Char → Nat) (cs ov : Nat) (t : List Char)
    (hne : t ≠ []) (hfit : m t ≤ cs) :
    splitText m cs ov t = some (postprocessChunks [t]) := by
  have hie : t.isEmpty = false := by simp [List.isEmpty_iff, hne]
  rw [splitText, hie]
  simp only [Bool.false_eq_true, if_false, splitFuelBound]
  rw [splitFuel_of_fit m cs t.length t hfit]
  simp only [Option.bind_eq_bind, Option.some_bind]
  rw [merge_single cs ov (m t) t hfit]
  simp

/-! ### Whitespace lemmas for the default tokenizer -/

theorem fieldsCountAux_all_space (t : List Char) (hsp : ∀ c ∈ t, goIsSpace c) :
    ∀ b, fieldsCountAux b t = 0 := by
  induction t with
  | nil => intro b; rfl
  | cons c cs ih =>
    intro b
    have hc : goIsSpace c := hsp c (by simp)
    rw [fieldsCountAux]
    simp only [hc, if_true]
    exact ih (fun d hd => hsp d (by simp [hd])) true

theorem trimSpace_all_space (t : List Char) (hsp : ∀ c ∈ t, goIsSpace c) :
    trimSpace t = [] := by
  unfold trimSpace
  have hdrop : t.dropWhile goIsSpace = [] := by
    rw [List.dropWhile_eq_nil_iff]
    exact fun c hc => hsp c hc
  rw [hdrop]
  rfl

/-! ### Termination of the merge loop -/

theorem mergeFuel_isSome (cs ov : Nat) :
    ∀ (fuel : Nat) (splits : List TextSplit) (chunks : List (List BufItem))
      (cur : List BufItem) (curLen : Nat) (newC : Bool),
      2 * splits.length + (if newC then 0 else 1) ≤ fuel →
      (mergeFuel cs ov fuel chunks cur curLen newC splits).isSome := by
  intro fuel
  induction fuel with
  | zero =>
    intro splits chunks cur curLen newC h
    cases splits with
    | nil => rw [mergeFuel]; exact Option.isSome_some
    | cons s rest =>
      exfalso
      cases newC <;> simp at h <;> omega
  | succ n ih =>
    intro splits chunks cur curLen newC h
    cases splits with
    | nil => rw [mergeFuel]; exact Option.isSome_some
    | cons s rest =>
      rw [mergeFuel]
      by_cases h1 : s.tokenSize > cs
      · rw [if_pos h1]; exact Option.isSome_some
      · rw [if_neg h1]
        by_cases h2 : curLen + s.tokenSize > cs ∧ newC = false
        · rw [if_pos h2]
          apply ih
          obtain ⟨-, hnc⟩ := h2
          subst hnc
          simp only [List.length_cons] at h ⊢
          simp at h ⊢
          omega
        · rw [if_neg h2]
          by_cases h3 : s.isSentence = true ∨
              ((if newC = true ∧ curLen + s.tokenSize > cs then
                  evictFront cs s.tokenSize cur curLen
                else (cur, curLen)).2 + s.tokenSize ≤ cs) ∨ newC = true
          · rw [if_pos h3]
            apply ih
            cases newC <;> simp only [List.length_cons] at h ⊢ <;> simp at h ⊢ <;> omega
          · rw [if_neg h3]
            have hnc : newC = false := by
              cases newC
              · rfl
              · exact absurd (Or.inr (Or.inr rfl)) h3
            subst hnc
            apply ih
            simp only [List.length_cons] at h ⊢
            simp at h ⊢
            omega

/-! ### The oversized-paragraph hard split -/

theorem utf8Len_append (x y : List Char) : utf8Len (x ++ y) = utf8Len x + utf8Len y := by
  simp [utf8Len]

theorem utf8Len_singleton (c : Char) : utf8Len [c] = c.utf8Size := by
  simp [utf8Len]

theorem greedyTakeCount_le_length (budget : Nat) (l : List Char) :
    greedyTakeCount budget l ≤ l.length := by
  induction l generalizing budget with
  | nil => simp [greedyTakeCount]
  | cons c cs ih =>
    rw [greedyTakeCount]
    split
    · have := ih (budget - c.utf8Size)
      simp only [List.length_cons]
      omega
    · simp

theorem splitOversizedAux_succ (maxChunkSize n : Nat) (c : Char) (cs : List Char) :
    splitOversizedAux maxChunkSize (n + 1) (c :: cs) =
      (c :: cs).take
          (if greedyTakeCount maxChunkSize (c :: cs) = 0 then 1
            else greedyTakeCount maxChunkSize (c :: cs)) ::
        splitOversizedAux maxChunkSize n
          ((c :: cs).drop
            (if greedyTakeCount maxChunkSize (c :: cs) = 0 then 1
              else greedyTakeCount maxChunkSize (c :: cs))) := rfl

theorem utf8Len_take_greedy (budget : Nat) (l : List Char) :
    utf8Len (l.take (greedyTakeCount budget l)) ≤ budget := by
  induction l generalizing budget with
  | nil => simp [greedyTakeCount, utf8Len]
  | cons c cs ih =>
    rw [greedyTakeCount]
    split
    · rename_i hfit
      rw [show 1 + greedyTakeCount (budget - c.utf8Size) cs =
          greedyTakeCount (budget - c.utf8Size) cs + 1 from Nat.add_comm _ _]
      rw [List.take_succ_cons]
      have := ih (budget - c.utf8Size)
      simp only [utf8Len, List.map_cons, List.sum_cons]
      simp only [utf8Len] at this
      omega
    · simp [utf8Len]

theorem greedyTakeCount_maximal (budget : Nat) (l : List Char)
    (hlt : greedyTakeCount budget l < l.length) :
    budget < utf8Len (l.take (greedyTakeCount budget l + 1)) := by
  induction l generalizing budget with
  | nil => simp at hlt
  | cons c cs ih =>
    rw [greedyTakeCount] at hlt ⊢
    by_cases hfit : c.utf8Size ≤ budget
    · rw [if_pos hfit] at hlt ⊢
      rw [show 1 + greedyTakeCount (budget - c.utf8Size) cs + 1 =
          (greedyTakeCount (budget - c.utf8Size) cs + 1) + 1 by omega]
      rw [List.take_succ_cons]
      have hlt' : greedyTakeCount (budget - c.utf8Size) cs < cs.length := by
        simp at hlt; omega
      have := ih (budget - c.utf8Size) hlt'
      simp only [utf8Len, List.map_cons, List.sum_cons]
      simp only [utf8Len] at this
      omega
    · rw [if_neg hfit] at hlt ⊢
      rw [List.take_succ_cons, List.take_zero]
      simp only [utf8Len_singleton]
      omega

theorem splitOversizedAux_flatten (maxChunkSize : Nat) :
    ∀ (fuel : Nat) (t : List Char),
      (splitOversizedAux maxChunkSize fuel t).flatten = t := by
  intro fuel
  induction fuel with
  | zero =>
    intro t
    cases t with
    | nil => rfl
    | cons c cs => show ([c :: cs] : List (List Char)).flatten = c :: cs; simp
  | succ n ih =>
    intro t
    cases t with
    | nil => rfl
    | cons c cs =>
      show ((c :: cs).take _ :: splitOversizedAux maxChunkSize n ((c :: cs).drop _)).flatten
        = c :: cs
      rw [List.flatten_cons, ih]
      exact List.take_append_drop _ _

theorem splitOversizedAux_bound (maxChunkSize : Nat) :
    ∀ (fuel : Nat) (t : List Char), t.length ≤ fuel →
      (∀ c ∈ t, c.utf8Size ≤ maxChunkSize) →
      ∀ piece ∈ splitOversizedAux maxChunkSize fuel t, utf8Len piece ≤ maxChunkSize := by
  intro fuel
  induction fuel with
  | zero =>
    intro t hlen _ piece hp
    have : t = [] := List.length_eq_zero.mp (Nat.le_zero.mp hlen)
    subst this
    simp [splitOversizedAux] at hp
  | succ n ih =>
    intro t hlen hrunes piece hp
    cases t with
    | nil => simp [splitOversizedAux] at hp
    | cons c cs =>
      have hk1 : 1 ≤ greedyTakeCount maxChunkSize (c :: cs) := by
        rw [greedyTakeCount]
        rw [if_pos (hrunes c (by simp))]
        omega
      rw [splitOversizedAux_succ, if_neg (by omega)] at hp
      rcases List.mem_cons.mp hp with hhd | htl
      · subst hhd
        exact utf8Len_take_greedy maxChunkSize (c :: cs)
      · refine ih ((c :: cs).drop (greedyTakeCount maxChunkSize (c :: cs))) ?_ ?_ piece htl
        · simp only [List.length_drop, List.length_cons] at hlen ⊢
          omega
        · intro d hd
          exact hrunes d (List.mem_of_mem_drop hd)

theorem splitOversizedAux_head (maxChunkSize fuel : Nat) (d : Char) (tail : List Char) :
    ∃ piece rest, splitOversizedAux maxChunkSize fuel (d :: tail) = piece :: rest ∧
      piece.head? = some d := by
  cases fuel with
  | zero => exact ⟨d :: tail, [], rfl, rfl⟩
  | succ n =>
    by_cases hk0 : greedyTakeCount maxChunkSize (d :: tail) = 0
    · refine ⟨(d :: tail).take 1,
        splitOversizedAux maxChunkSize n ((d :: tail).drop 1), ?_, ?_⟩
      · rw [splitOversizedAux_succ, if_pos hk0]
      · simp
    · obtain ⟨j, hj⟩ := Nat.exists_eq_succ_of_ne_zero hk0
      refine ⟨(d :: tail).take (greedyTakeCount maxChunkSize (d :: tail)),
        splitOversizedAux maxChunkSize n
          ((d :: tail).drop (greedyTakeCount maxChunkSize (d :: tail))), ?_, ?_⟩
      · rw [splitOversizedAux_succ, if_neg hk0]
      · rw [hj, List.take_succ_cons]
        rfl

theorem splitOversizedAux_chain (maxChunkSize : Nat) :
    ∀ (fuel : Nat) (t : List Char), t.length ≤ fuel →
      List.Chain'
        (fun a b => ∀ c, b.head? = some c → maxChunkSize < utf8Len a + c.utf8Size)
        (splitOversizedAux maxChunkSize fuel t) := by
  intro fuel
  induction fuel with
  | zero =>
    intro t hlen
    have : t = [] := List.length_eq_zero.mp (Nat.le_zero.mp hlen)
    subst this
    simp [splitOversizedAux]
  | succ n ih =>
    intro t hlen
    cases t with
    | nil => simp [splitOversizedAux]
    | cons c cs =>
      set k := greedyTakeCount maxChunkSize (c :: cs) with hkdef
      set k2 : Nat := if k = 0 then 1 else k with hk2def
      have hk2pos : 1 ≤ k2 := by rw [hk2def]; split <;> omega
      have hstep : splitOversizedAux maxChunkSize (n + 1) (c :: cs) =
          (c :: cs).take k2 :: splitOversizedAux maxChunkSize n ((c :: cs).drop k2) := rfl
      rw [hstep, List.chain'_cons']
      constructor
      · intro y hy c' hc'
        cases hdrop : (c :: cs).drop k2 with
        | nil =>
          rw [hdrop] at hy
          simp [splitOversizedAux] at hy
        | cons d tail =>
          rw [hdrop] at hy
          obtain ⟨piece, rest, heq, hhead⟩ := splitOversizedAux_head maxChunkSize n d tail
          rw [heq] at hy
          simp only [List.head?_cons, Option.mem_def, Option.some.injEq] at hy
          subst hy
          rw [hhead] at hc'
          injection hc' with hcd
          subst hcd
          by_cases hk0 : k = 0
          · have hk21 : k2 = 1 := by rw [hk2def, if_pos hk0]
            have hbig : ¬ c.utf8Size ≤ maxChunkSize := by
              intro hfit
              rw [hkdef] at hk0
              rw [greedyTakeCount, if_pos hfit] at hk0
              omega
            rw [hk21, List.take_succ_cons, List.take_zero, utf8Len_singleton]
            omega
          · have hk2k : k2 = k := by rw [hk2def, if_neg hk0]
            have hklen : k < (c :: cs).length := by
              by_contra hge
              have : (c :: cs).drop k2 = [] := by
                rw [hk2k]
                exact List.drop_eq_nil_of_le (by omega)
              rw [this] at hdrop
              exact List.noConfusion hdrop
            have hmax := greedyTakeCount_maximal maxChunkSize (c :: cs) hklen
            rw [← hkdef] at hmax
            have hget : (c :: cs).drop k = (c :: cs)[k] :: (c :: cs).drop (k + 1) :=
              List.drop_eq_getElem_cons hklen
            rw [hk2k] at hdrop
            rw [hdrop] at hget
            have hd : d = (c :: cs)[k] := by injection hget
            have htake : (c :: cs).take (k + 1) = ((c :: cs).take k).concat (c :: cs)[k] :=
              (List.take_concat_get _ _ hklen).symm
            rw [htake, List.concat_eq_append, utf8Len_append, utf8Len_singleton] at hmax
            rw [hk2k, hd]
            omega
      · apply ih
        simp only [List.length_drop, List.length_cons] at hlen ⊢
        omega

theorem splitOversizedParagraph_spec (maxChunkSize : Nat) (p : List Char) :
    (splitOversizedParagraph maxChunkSize p).flatten = p ∧
      ((∀ c ∈ p, c.utf8Size ≤ maxChunkSize) →
        ∀ piece ∈ splitOversizedParagraph maxChunkSize p, utf8Len piece ≤ maxChunkSize) ∧
      List.Chain'
        (fun a b => ∀ c, b.head? = some c → maxChunkSize < utf8Len a + c.utf8Size)
        (splitOversizedParagraph maxChunkSize p) :=
  ⟨splitOversizedAux_flatten maxChunkSize p.length p,
   fun h => splitOversizedAux_bound maxChunkSize p.length p (Nat.le_refl _) h,
   splitOversizedAux_chain maxChunkSize p.length p (Nat.le_refl _)⟩

/-! ### Leaf sizes produced by `split` -/

theorem splitPieces_sizes (m : List Char → Nat) (cs : Nat)
    (recurse : List Char → Option (List TextSplit))
    (IH : ∀ t leaves, recurse t = some leaves →
        ∀ l ∈ leaves, l.tokenSize = m l.text ∧ l.tokenSize ≤ cs) :
    ∀ (ps : List (List Char)) (b : Bool) (leaves : List TextSplit),
      splitPieces m cs recurse ps b = some leaves →
      ∀ l ∈ leaves, l.tokenSize = m l.text ∧ l.tokenSize ≤ cs := by
  intro ps
  induction ps with
  | nil =>
    intro b leaves h
    rw [splitPieces] at h
    cases h
    simp
  | cons p ps ih =>
    intro b leaves h
    rw [splitPieces] at h
    by_cases hfit : m p ≤ cs
    · simp only [if_pos hfit] at h
      cases hrest : splitPieces m cs recurse ps b with
      | none => rw [hrest] at h; simp at h
      | some rest =>
        rw [hrest] at h
        simp only [Option.bind_eq_bind, Option.some_bind, Option.some.injEq] at h
        subst h
        intro l hl
        rcases List.mem_cons.mp hl with hhd | htl
        · subst hhd; exact ⟨rfl, hfit⟩
        · exact ih b rest hrest l htl
    · simp only [if_neg hfit] at h
      cases hrec : recurse p with
      | none => rw [hrec] at h; simp at h
      | some recSplits =>
        rw [hrec] at h
        cases hrest : splitPieces m cs recurse ps b with
        | none => rw [hrest] at h; simp at h
        | some rest =>
          rw [hrest] at h
          simp only [Option.bind_eq_bind, Option.some_bind, Option.some.injEq] at h
          subst h
          intro l hl
          rcases List.mem_append.mp hl with hrec' | htl
          · exact IH p recSplits hrec l hrec'
          · exact ih b rest hrest l htl

theorem splitFuel_sizes (m : List Char → Nat) (cs : Nat) :
    ∀ (fuel : Nat) (t : List Char) (leaves : List TextSplit),
      splitFuel m cs fuel t = some leaves →
      ∀ l ∈ leaves, l.tokenSize = m l.text ∧ l.tokenSize ≤ cs := by
  intro fuel
  induction fuel with
  | zero => intro t leaves h; rw [splitFuel] at h; simp at h
  | succ n ihn =>
    intro t leaves h
    rw [splitFuel] at h
    by_cases hfit : m t ≤ cs
    · simp only [if_pos hfit, Option.some.injEq] at h
      subst h
      intro l hl
      rcases List.mem_singleton.mp hl with rfl
      exact ⟨rfl, hfit⟩
    · simp only [if_neg hfit] at h
      exact splitPieces_sizes m cs (splitFuel m cs n) ihn
        (getSplitsByFns t).1 (getSplitsByFns t).2 leaves h

/-! ### Sub-additive measures bound chunk text by the sum of leaf sizes -/

theorem measure_chunkText_le (m : List Char → Nat) (hsub : Subadditive m) :
    ∀ (items : List BufItem), items ≠ [] → (∀ i ∈ items, i.len = m i.text) →
      m (chunkText items) ≤ sumLens items := by
  intro items
  induction items with
  | nil => intro h; exact absurd rfl h
  | cons i rest ih =>
    intro _ hlens
    cases rest with
    | nil =>
      have hct : chunkText [i] = i.text := by simp [chunkText]
      have hsum : sumLens [i] = i.len := by simp [sumLens]
      rw [hct, hsum, hlens i (by simp)]
    | cons j rest' =>
      have hct : chunkText (i :: j :: rest') = i.text ++ chunkText (j :: rest') := by
        simp [chunkText]
      rw [hct]
      have h1 := hsub i.text (chunkText (j :: rest'))
      have h2 := ih (by simp) (fun x hx => hlens x (by simp [hx]))
      have h3 : sumLens (i :: j :: rest') = i.len + sumLens (j :: rest') := by
        simp [sumLens]
      have h4 := hlens i (by simp)
      omega

/-! ### The overlap walk and the front eviction -/

theorem overlapWalk_sum (ov : Nat) :
    ∀ (rl acc : List BufItem) (accLen : Nat), accLen = sumLens acc →
      (overlapWalk ov rl acc accLen).2 = sumLens (overlapWalk ov rl acc accLen).1 := by
  intro rl
  induction rl with
  | nil => intro acc accLen h; exact h
  | cons i rest ih =>
    intro acc accLen h
    rw [overlapWalk]
    split
    · exact ih (i :: acc) (accLen + i.len) (by simp [sumLens] at h ⊢; omega)
    · exact h

theorem overlapWalk_mem (ov : Nat) :
    ∀ (rl acc : List BufItem) (accLen : Nat) (i : BufItem),
      i ∈ (overlapWalk ov rl acc accLen).1 → i ∈ rl ∨ i ∈ acc := by
  intro rl
  induction rl with
  | nil => intro acc accLen i h; exact Or.inr h
  | cons j rest ih =>
    intro acc accLen i h
    rw [overlapWalk] at h
    split at h
    · rcases ih (j :: acc) (accLen + j.len) i h with hr | ha
      · exact Or.inl (by simp [hr])
      · rcases List.mem_cons.mp ha with rfl | ha'
        · exact Or.inl (by simp)
        · exact Or.inr ha'
    · exact Or.inr h

theorem overlapSeed_sum (ov : Nat) (items : List BufItem) :
    (overlapSeed ov items).2 = sumLens (overlapSeed ov items).1 :=
  overlapWalk_sum ov items.reverse [] 0 rfl

theorem overlapSeed_mem (ov : Nat) (items : List BufItem) (i : BufItem)
    (h : i ∈ (overlapSeed ov items).1) : i ∈ items := by
  rcases overlapWalk_mem ov items.reverse [] 0 i h with hr | ha
  · exact List.mem_reverse.mp hr
  · simp at ha

theorem evictFront_spec (cs size : Nat) :
    ∀ (items : List BufItem) (curLen : Nat), curLen = sumLens items →
      (evictFront cs size items curLen).2 = sumLens (evictFront cs size items curLen).1 ∧
      (∀ i ∈ (evictFront cs size items curLen).1, i ∈ items) ∧
      ((evictFront cs size items curLen).1 = [] ∨
        (evictFront cs size items curLen).2 + size ≤ cs) := by
  intro items
  induction items with
  | nil =>
    intro curLen h
    rw [evictFront]
    exact ⟨h, by simp, Or.inl rfl⟩
  | cons i rest ih =>
    intro curLen h
    rw [evictFront]
    split
    · have hrest : curLen - i.len = sumLens rest := by
        simp [sumLens] at h ⊢
        omega
      obtain ⟨h1, h2, h3⟩ := ih (curLen - i.len) hrest
      exact ⟨h1, fun j hj => by simp [h2 j hj], h3⟩
    · rename_i hfits
      refine ⟨h, fun j hj => hj, Or.inr (by omega)⟩

/-! ### The merge-loop invariant: every emitted chunk's leaf sizes sum within budget -/

theorem mergeFuel_ok_invariant (m : List Char → Nat) (cs ov : Nat) :
    ∀ (fuel : Nat) (splits : List TextSplit) (chunks : List (List BufItem))
      (cur : List BufItem) (curLen : Nat) (newC : Bool) (out : List (List BufItem)),
      (∀ s ∈ splits, s.tokenSize = m s.text ∧ s.tokenSize ≤ cs) →
      (∀ i ∈ cur, i.len = m i.text) →
      curLen = sumLens cur →
      (newC = false → cur ≠ [] ∧ curLen ≤ cs) →
      (∀ ch ∈ chunks, ch ≠ [] ∧ (∀ i ∈ ch, i.len = m i.text) ∧ sumLens ch ≤ cs) →
      mergeFuel cs ov fuel chunks cur curLen newC splits = some (.ok out) →
      ∀ ch ∈ out, ch ≠ [] ∧ (∀ i ∈ ch, i.len = m i.text) ∧ sumLens ch ≤ cs := by
  have final : ∀ (chunks : List (List BufItem)) (cur : List BufItem) (curLen : Nat)
      (newC : Bool) (out : List (List BufItem)),
      (∀ i ∈ cur, i.len = m i.text) →
      curLen = sumLens cur →
      (newC = false → cur ≠ [] ∧ curLen ≤ cs) →
      (∀ ch ∈ chunks, ch ≠ [] ∧ (∀ i ∈ ch, i.len = m i.text) ∧ sumLens ch ≤ cs) →
      (if newC = true then chunks else chunks ++ [cur]) = out →
      ∀ ch ∈ out, ch ≠ [] ∧ (∀ i ∈ ch, i.len = m i.text) ∧ sumLens ch ≤ cs := by
    intro chunks cur curLen newC out hlen hsum hnew hch hout
    cases newC with
    | true => rw [if_pos rfl] at hout; subst hout; exact hch
    | false =>
      rw [if_neg (by simp)] at hout
      subst hout
      intro ch hchm
      rcases List.mem_append.mp hchm with hc | hc
      · exact hch ch hc
      · rcases List.mem_singleton.mp hc with rfl
        obtain ⟨hne, hle⟩ := hnew rfl
        exact ⟨hne, hlen, by omega⟩
  intro fuel
  induction fuel with
  | zero =>
    intro splits chunks cur curLen newC out hs hlen hsum hnew hch h
    cases splits with
    | nil =>
      rw [mergeFuel] at h
      simp only [Option.some.injEq, MergeResult.ok.injEq] at h
      exact final chunks cur curLen newC out hlen hsum hnew hch h
    | cons s rest => rw [mergeFuel] at h; simp at h
  | succ n ih =>
    intro splits chunks cur curLen newC out hs hlen hsum hnew hch h
    cases splits with
    | nil =>
      rw [mergeFuel] at h
      simp only [Option.some.injEq, MergeResult.ok.injEq] at h
      exact final chunks cur curLen newC out hlen hsum hnew hch h
    | cons s rest =>
      have hs0 := hs s (by simp)
      have hsrest : ∀ x ∈ rest, x.tokenSize = m x.text ∧ x.tokenSize ≤ cs :=
        fun x hx => hs x (by simp [hx])
      rw [mergeFuel] at h
      rw [if_neg (by omega : ¬ s.tokenSize > cs)] at h
      by_cases h2 : curLen + s.tokenSize > cs ∧ newC = false
      · rw [if_pos h2] at h
        refine ih (s :: rest) (chunks ++ [cur]) (overlapSeed ov cur).1 (overlapSeed ov cur).2
          true out hs ?_ ?_ (by simp) ?_ h
        · exact fun i hi => hlen i (overlapSeed_mem ov cur i hi)
        · exact overlapSeed_sum ov cur
        · intro ch hchm
          rcases List.mem_append.mp hchm with hc | hc
          · exact hch ch hc
          · rcases List.mem_singleton.mp hc with rfl
            obtain ⟨hne, hle⟩ := hnew h2.2
            exact ⟨hne, hlen, by omega⟩
      · rw [if_neg h2] at h
        by_cases hcond : newC = true ∧ curLen + s.tokenSize > cs
        · rw [if_pos hcond] at h
          obtain ⟨hEsum, hEmem, hEpost⟩ := evictFront_spec cs s.tokenSize cur curLen hsum
          have hEfits : (evictFront cs s.tokenSize cur curLen).2 + s.tokenSize ≤ cs := by
            rcases hEpost with hemp | hle
            · rw [hEsum, hemp]
              simp [sumLens]
              omega
            · exact hle
          rw [if_pos (Or.inr (Or.inl hEfits))] at h
          refine ih rest chunks
            ((evictFront cs s.tokenSize cur curLen).1 ++ [⟨s.text, s.tokenSize⟩])
            ((evictFront cs s.tokenSize cur curLen).2 + s.tokenSize) false out
            hsrest ?_ ?_ ?_ hch h
          · intro i hi
            rcases List.mem_append.mp hi with hc | hc
            · exact hlen i (hEmem i hc)
            · rcases List.mem_singleton.mp hc with rfl
              exact hs0.1
          · simp [sumLens, hEsum]
          · intro _
            exact ⟨by simp, by simp [sumLens] at hEsum ⊢; omega⟩
        · rw [if_neg hcond] at h
          have hfits : curLen + s.tokenSize ≤ cs := by
            by_contra hlt
            rcases Bool.eq_false_or_eq_true newC with hbt | hbf
            · exact hcond ⟨hbt, by omega⟩
            · exact h2 ⟨by omega, hbf⟩
          rw [if_pos (Or.inr (Or.inl hfits))] at h
          refine ih rest chunks (cur ++ [⟨s.text, s.tokenSize⟩]) (curLen + s.tokenSize)
            false out hsrest ?_ ?_ ?_ hch h
          · intro i hi
            rcases List.mem_append.mp hi with hc | hc
            · exact hlen i hc
            · rcases List.mem_singleton.mp hc with rfl
              exact hs0.1
          · simp [sumLens] at hsum ⊢
            omega
          · intro _
            exact ⟨by simp, by omega⟩

/-! ### The default whitespace tokenizer is sub-additive and trim-stable -/

theorem fieldsCountAux_mono (t : List Char) :
    ∀ b, fieldsCountAux b t ≤ fieldsCountAux true t := by
  induction t with
  | nil => intro b; exact Nat.le_refl _
  | cons c cs ih =>
    intro b
    rw [fieldsCountAux, fieldsCountAux]
    by_cases hc : goIsSpace c
    · simp [hc]
    · simp only [hc, if_false, Bool.false_eq_true]
      by_cases hb : b = true
      · simp [hb]
      · simp [hb]

theorem fieldsCountAux_append (x : List Char) :
    ∀ (y : List Char) (b : Bool),
      fieldsCountAux b (x ++ y) ≤ fieldsCountAux b x + fieldsCountAux true y := by
  induction x with
  | nil =>
    intro y b
    simpa [fieldsCountAux] using fieldsCountAux_mono y b
  | cons c cs ih =>
    intro y b
    rw [List.cons_append, fieldsCountAux]
    by_cases hc : goIsSpace c
    · simp only [hc, if_true]
      calc fieldsCountAux true (cs ++ y)
          ≤ fieldsCountAux true cs + fieldsCountAux true y := ih y true
        _ = fieldsCountAux b (c :: cs) + fieldsCountAux true y := by
            rw [fieldsCountAux]; simp [hc]
    · simp only [hc, if_false, Bool.false_eq_true]
      have h1 := ih y false
      have h2 : fieldsCountAux b (c :: cs) =
          (if b = true then 1 else 0) + fieldsCountAux false cs := by
        rw [fieldsCountAux]; simp [hc]
      omega

theorem fieldsCount_subadditive : Subadditive fieldsCount :=
  fun x y => fieldsCountAux_append x y true

theorem fieldsCountAux_dropWhile_space (t : List Char) :
    fieldsCountAux true (t.dropWhile goIsSpace) = fieldsCountAux true t := by
  induction t with
  | nil => rfl
  | cons c cs ih =>
    by_cases hc : goIsSpace c
    · rw [List.dropWhile_cons_of_pos hc, ih, fieldsCountAux]
      simp [hc]
    · rw [List.dropWhile_cons_of_neg hc]

theorem fieldsCountAux_append_allspace (v : List Char) (hv : ∀ c ∈ v, goIsSpace c) :
    ∀ (u : List Char) (b : Bool), fieldsCountAux b (u ++ v) = fieldsCountAux b u := by
  intro u
  induction u with
  | nil =>
    intro b
    simpa using fieldsCountAux_all_space v hv b
  | cons c cs ih =>
    intro b
    rw [List.cons_append, fieldsCountAux, fieldsCountAux]
    by_cases hc : goIsSpace c
    · simp [hc, ih]
    · simp [hc, ih]

theorem fieldsCount_trimSpace (t : List Char) :
    fieldsCount (trimSpace t) = fieldsCount t := by
  unfold fieldsCount trimSpace
  set t1 := t.dropWhile goIsSpace with ht1
  have hsplitr : (t1.reverse.takeWhile goIsSpace) ++ (t1.reverse.dropWhile goIsSpace) =
      t1.reverse := List.takeWhile_append_dropWhile goIsSpace t1.reverse
  have ht1eq : t1 = (t1.reverse.dropWhile goIsSpace).reverse ++
      (t1.reverse.takeWhile goIsSpace).reverse := by
    have hrev := congrArg List.reverse hsplitr
    rw [List.reverse_append, List.reverse_reverse] at hrev
    exact hrev.symm
  have hallsp : ∀ c ∈ (t1.reverse.takeWhile goIsSpace).reverse, goIsSpace c := by
    intro c hc
    rw [List.mem_reverse] at hc
    exact List.mem_takeWhile_imp hc
  calc fieldsCountAux true (t1.reverse.dropWhile goIsSpace).reverse
      = fieldsCountAux true ((t1.reverse.dropWhile goIsSpace).reverse ++
          (t1.reverse.takeWhile goIsSpace).reverse) :=
        (fieldsCountAux_append_allspace _ hallsp _ true).symm
    _ = fieldsCountAux true t1 := by rw [← ht1eq]
    _ = fieldsCountAux true t := by rw [ht1]; exact fieldsCountAux_dropWhile_space t

theorem fieldsCount_trimStable : TrimStable fieldsCount :=
  fun t => Nat.le_of_eq (fieldsCount_trimSpace t)

/-! ### Chunk-size bound for `SentenceSplitter.SplitText` -/

theorem splitText_chunks_bounded (m : List Char → Nat) (cs ov : Nat)
    (hsub : Subadditive m) (htrim : TrimStable m) (text : List Char) (hne : text ≠ [])
    (chunks : List (List Char)) (h : splitText m cs ov text = some chunks) :
    ∀ c ∈ chunks, m c ≤ cs := by
  rw [splitText, if_neg (by simp [List.isEmpty_iff, hne])] at h
  cases hsp : splitFuel m cs (splitFuelBound text) text with
  | none => rw [hsp] at h; simp at h
  | some leaves =>
    rw [hsp] at h
    simp only [Option.bind_eq_bind, Option.some_bind] at h
    cases hm : merge cs ov leaves with
    | none => rw [hm] at h; simp at h
    | some raw =>
      rw [hm] at h
      simp only [Option.some_bind, Option.some.injEq] at h
      subst h
      rw [merge] at hm
      cases hmf : mergeFuel cs ov (mergeFuelBound leaves) [] [] 0 true leaves with
      | none => rw [hmf] at hm; simp at hm
      | some r =>
        cases r with
        | panicked => rw [hmf] at hm; simp at hm
        | ok itemChunks =>
          rw [hmf] at hm
          simp only [Option.some.injEq] at hm
          subst hm
          have hinv := mergeFuel_ok_invariant m cs ov (mergeFuelBound leaves) leaves
            [] [] 0 true itemChunks
            (splitFuel_sizes m cs (splitFuelBound text) text leaves hsp)
            (by simp) rfl (by simp) (by simp) hmf
          intro c hc
          rw [postprocessChunks] at hc
          rcases List.mem_filter.mp hc with ⟨hc1, -⟩
          rcases List.mem_map.mp hc1 with ⟨c0, hc0, rfl⟩
          rcases List.mem_map.mp hc0 with ⟨ch, hch, rfl⟩
          obtain ⟨hchne, hchlen, hchsum⟩ := hinv ch hch
          calc m (trimSpace (chunkText ch)) ≤ m (chunkText ch) := htrim (chunkText ch)
            _ ≤ sumLens ch := measure_chunkText_le m hsub ch hchne hchlen
            _ ≤ cs := hchsum

/-! ### Byte-size bound for `ParagraphSplitter.SplitText` -/

theorem joinNL_append_singleton :
    ∀ (l : List (List Char)) (p : List Char),
      joinNL (l ++ [p]) = if l.isEmpty then p else joinNL l ++ nlSep ++ p := by
  intro l
  induction l with
  | nil => intro p; simp [joinNL]
  | cons a rest ih =>
    intro p
    cases rest with
    | nil => simp [joinNL]
    | cons b rest' =>
      have h1 : joinNL ((a :: b :: rest') ++ [p]) =
          a ++ nlSep ++ joinNL ((b :: rest') ++ [p]) := rfl
      rw [h1, ih p]
      simp [joinNL, List.append_assoc]

theorem utf8Len_joinNL_member :
    ∀ (l : List (List Char)) (p : List Char), p ∈ l → utf8Len p ≤ utf8Len (joinNL l) := by
  intro l
  induction l with
  | nil => intro p hp; simp at hp
  | cons a rest ih =>
    intro p hp
    cases rest with
    | nil =>
      rcases List.mem_singleton.mp hp with rfl
      exact Nat.le_refl _
    | cons b rest' =>
      have hj : joinNL (a :: b :: rest') = a ++ nlSep ++ joinNL (b :: rest') := rfl
      rw [hj, utf8Len_append, utf8Len_append]
      rcases List.mem_cons.mp hp with rfl | hp'
      · omega
      · have := ih p hp'
        omega

theorem getLastD_mem : ∀ (l : List (List Char)), l ≠ [] → l.getLastD [] ∈ l := by
  intro l
  induction l with
  | nil => intro h; exact absurd rfl h
  | cons a rest ih =>
    intro _
    cases rest with
    | nil => simp
    | cons b rest' =>
      have : (a :: b :: rest').getLastD [] = (b :: rest').getLastD [] := by
        simp [List.getLastD]
      rw [this]
      exact List.mem_cons_of_mem a (ih (by simp))

theorem addSubPart_inv (maxChunkSize : Nat) (st : PSt) (subP : List Char)
    (hsubP : utf8Len subP ≤ maxChunkSize)
    (hch : ∀ ch ∈ st.chunks, utf8Len ch ≤ maxChunkSize)
    (hsum : st.curSize = utf8Len (joinNL st.cur))
    (hcur : st.cur ≠ [] → st.curSize ≤ maxChunkSize) :
    (∀ ch ∈ (addSubPart maxChunkSize st subP).chunks, utf8Len ch ≤ maxChunkSize) ∧
      (addSubPart maxChunkSize st subP).curSize =
        utf8Len (joinNL (addSubPart maxChunkSize st subP).cur) ∧
      ((addSubPart maxChunkSize st subP).cur ≠ [] →
        (addSubPart maxChunkSize st subP).curSize ≤ maxChunkSize) := by
  have hsep : utf8Len nlSep = 1 := by decide
  rw [addSubPart]
  by_cases hover : st.curSize + utf8Len subP + utf8Len nlSep > maxChunkSize
  · rw [if_pos hover]
    by_cases hemp : st.cur.isEmpty
    · rw [if_pos hemp]
      exact ⟨hch, by simp [joinNL], fun _ => hsubP⟩
    · rw [if_neg hemp]
      have hcurne : st.cur ≠ [] := by simpa [List.isEmpty_iff] using hemp
      have hflush : utf8Len (joinNL st.cur) ≤ maxChunkSize := by
        rw [← hsum]; exact hcur hcurne
      by_cases hbig : utf8Len (st.cur.getLastD []) + utf8Len subP + utf8Len nlSep >
          maxChunkSize
      · rw [if_pos hbig]
        refine ⟨?_, by simp [joinNL], fun _ => hsubP⟩
        intro ch hchm
        rcases List.mem_append.mp hchm with hc | hc
        · exact hch ch hc
        · rcases List.mem_singleton.mp hc with rfl
          exact hflush
      · rw [if_neg hbig]
        refine ⟨?_, ?_, ?_⟩
        · intro ch hchm
          rcases List.mem_append.mp hchm with hc | hc
          · exact hch ch hc
          · rcases List.mem_singleton.mp hc with rfl
            exact hflush
        · show _ = utf8Len (joinNL [st.cur.getLastD [], subP])
          dsimp only
          have hj : joinNL [st.cur.getLastD [], subP] =
              st.cur.getLastD [] ++ nlSep ++ subP := rfl
          rw [hj, utf8Len_append, utf8Len_append]
        · intro _
          dsimp only
          omega
  · rw [if_neg hover]
    refine ⟨hch, ?_, ?_⟩
    · show st.curSize + (if st.cur.isEmpty then 0 else utf8Len nlSep) + utf8Len subP =
        utf8Len (joinNL (st.cur ++ [subP]))
      rw [joinNL_append_singleton]
      by_cases hemp : st.cur.isEmpty
      · rw [if_pos hemp, if_pos hemp]
        have hc0 : st.cur = [] := List.isEmpty_iff.mp hemp
        rw [hc0] at hsum
        simp [joinNL, utf8Len] at hsum
        omega
      · rw [if_neg hemp, if_neg hemp]
        rw [utf8Len_append, utf8Len_append, ← hsum]
    · intro _
      dsimp only
      have hif : (if st.cur.isEmpty then 0 else utf8Len nlSep) ≤ utf8Len nlSep := by
        split <;> omega
      omega

theorem addNormalParagraph_inv (maxChunkSize : Nat) (st : PSt) (p : List Char)
    (hp : utf8Len p ≤ maxChunkSize)
    (hch : ∀ ch ∈ st.chunks, utf8Len ch ≤ maxChunkSize)
    (hsum : st.curSize = utf8Len (joinNL st.cur))
    (hcur : st.cur ≠ [] → st.curSize ≤ maxChunkSize) :
    (∀ ch ∈ (addNormalParagraph maxChunkSize st p).chunks, utf8Len ch ≤ maxChunkSize) ∧
      (addNormalParagraph maxChunkSize st p).curSize =
        utf8Len (joinNL (addNormalParagraph maxChunkSize st p).cur) ∧
      ((addNormalParagraph maxChunkSize st p).cur ≠ [] →
        (addNormalParagraph maxChunkSize st p).curSize ≤ maxChunkSize) := by
  have hsep : utf8Len nlSep = 1 := by decide
  rw [addNormalParagraph]
  by_cases hover : st.curSize + (utf8Len p + if st.cur.isEmpty then 0 else utf8Len nlSep) >
      maxChunkSize
  · rw [if_pos hover]
    have hcurne : st.cur ≠ [] := by
      intro hemp
      rw [hemp] at hsum
      simp [joinNL, utf8Len] at hsum
      rw [List.isEmpty_iff.mpr hemp] at hover
      simp at hover
      omega
    have hflush : utf8Len (joinNL st.cur) ≤ maxChunkSize := by
      rw [← hsum]; exact hcur hcurne
    have hchunks' : ∀ ch ∈ st.chunks ++ [joinNL st.cur], utf8Len ch ≤ maxChunkSize := by
      intro ch hchm
      rcases List.mem_append.mp hchm with hc | hc
      · exact hch ch hc
      · rcases List.mem_singleton.mp hc with rfl
        exact hflush
    rw [if_neg (by simpa [List.isEmpty_iff] using hcurne)]
    by_cases hbig : utf8Len (st.cur.getLastD []) + utf8Len nlSep + utf8Len p > maxChunkSize
    · rw [if_pos hbig]
      exact ⟨hchunks', by simp [joinNL], fun _ => hp⟩
    · rw [if_neg hbig]
      refine ⟨hchunks', ?_, fun _ => by dsimp only; omega⟩
      dsimp only
      have hj : joinNL [st.cur.getLastD [], p] = st.cur.getLastD [] ++ nlSep ++ p := rfl
      rw [hj, utf8Len_append, utf8Len_append]
  · rw [if_neg hover]
    refine ⟨hch, ?_, ?_⟩
    · show st.curSize + (utf8Len p + if st.cur.isEmpty then 0 else utf8Len nlSep) =
        utf8Len (joinNL (st.cur ++ [p]))
      rw [joinNL_append_singleton]
      by_cases hemp : st.cur.isEmpty
      · rw [if_pos hemp, if_pos hemp]
        have hc0 : st.cur = [] := List.isEmpty_iff.mp hemp
        rw [hc0] at hsum
        simp [joinNL, utf8Len] at hsum
        omega
      · rw [if_neg hemp, if_neg hemp]
        rw [utf8Len_append, utf8Len_append, ← hsum]
        omega
    · intro _
      dsimp only
      have hif : (if st.cur.isEmpty then 0 else utf8Len nlSep) ≤ utf8Len nlSep := by
        split <;> omega
      omega

theorem foldl_addSubPart_inv (maxChunkSize : Nat) :
    ∀ (parts : List (List Char)) (st : PSt),
      (∀ q ∈ parts, utf8Len q ≤ maxChunkSize) →
      (∀ ch ∈ st.chunks, utf8Len ch ≤ maxChunkSize) →
      st.curSize = utf8Len (joinNL st.cur) →
      (st.cur ≠ [] → st.curSize ≤ maxChunkSize) →
      (∀ ch ∈ (parts.foldl (addSubPart maxChunkSize) st).chunks,
          utf8Len ch ≤ maxChunkSize) ∧
        (parts.foldl (addSubPart maxChunkSize) st).curSize =
          utf8Len (joinNL (parts.foldl (addSubPart maxChunkSize) st).cur) ∧
        ((parts.foldl (addSubPart maxChunkSize) st).cur ≠ [] →
          (parts.foldl (addSubPart maxChunkSize) st).curSize ≤ maxChunkSize) := by
  intro parts
  induction parts with
  | nil => intro st _ h1 h2 h3; exact ⟨h1, h2, h3⟩
  | cons q rest ih =>
    intro st hq h1 h2 h3
    rw [List.foldl_cons]
    obtain ⟨g1, g2, g3⟩ := addSubPart_inv maxChunkSize st q (hq q (by simp)) h1 h2 h3
    exact ih (addSubPart maxChunkSize st q) (fun x hx => hq x (by simp [hx])) g1 g2 g3

theorem addOversized_inv (maxChunkSize : Nat) (st : PSt) (p : List Char)
    (hrunes : ∀ c ∈ p, c.utf8Size ≤ maxChunkSize)
    (hch : ∀ ch ∈ st.chunks, utf8Len ch ≤ maxChunkSize)
    (hsum : st.curSize = utf8Len (joinNL st.cur))
    (hcur : st.cur ≠ [] → st.curSize ≤ maxChunkSize) :
    (∀ ch ∈ (addOversized maxChunkSize st p).chunks, utf8Len ch ≤ maxChunkSize) ∧
      (addOversized maxChunkSize st p).curSize =
        utf8Len (joinNL (addOversized maxChunkSize st p).cur) ∧
      ((addOversized maxChunkSize st p).cur ≠ [] →
        (addOversized maxChunkSize st p).curSize ≤ maxChunkSize) := by
  rw [addOversized]
  have hparts : ∀ q ∈ splitOversizedParagraph maxChunkSize p, utf8Len q ≤ maxChunkSize :=
    splitOversizedAux_bound maxChunkSize p.length p (Nat.le_refl _) hrunes
  by_cases hemp : st.cur.isEmpty
  · rw [if_pos hemp]
    exact foldl_addSubPart_inv maxChunkSize _ st hparts hch hsum hcur
  · rw [if_neg hemp]
    have hcurne : st.cur ≠ [] := by simpa [List.isEmpty_iff] using hemp
    have hflush : utf8Len (joinNL st.cur) ≤ maxChunkSize := by
      rw [← hsum]; exact hcur hcurne
    apply foldl_addSubPart_inv maxChunkSize _ _ hparts
    · intro ch hchm
      rcases List.mem_append.mp hchm with hc | hc
      · exact hch ch hc
      · rcases List.mem_singleton.mp hc with rfl
        exact hflush
    · simp [joinNL]
    · intro _
      calc utf8Len (st.cur.getLastD []) ≤ utf8Len (joinNL st.cur) :=
          utf8Len_joinNL_member st.cur _ (getLastD_mem st.cur hcurne)
        _ ≤ maxChunkSize := hflush

theorem addParagraph_inv (maxChunkSize : Nat) (st : PSt) (p : List Char)
    (hrunes : ∀ c ∈ p, c.utf8Size ≤ maxChunkSize)
    (hch : ∀ ch ∈ st.chunks, utf8Len ch ≤ maxChunkSize)
    (hsum : st.curSize = utf8Len (joinNL st.cur))
    (hcur : st.cur ≠ [] → st.curSize ≤ maxChunkSize) :
    (∀ ch ∈ (addParagraph maxChunkSize st p).chunks, utf8Len ch ≤ maxChunkSize) ∧
      (addParagraph maxChunkSize st p).curSize =
        utf8Len (joinNL (addParagraph maxChunkSize st p).cur) ∧
      ((addParagraph maxChunkSize st p).cur ≠ [] →
        (addParagraph maxChunkSize st p).curSize ≤ maxChunkSize) := by
  rw [addParagraph]
  by_cases hover : utf8Len p > maxChunkSize
  · rw [if_pos hover]
    exact addOversized_inv maxChunkSize st p hrunes hch hsum hcur
  · rw [if_neg hover]
    exact addNormalParagraph_inv maxChunkSize st p (by omega) hch hsum hcur

theorem foldl_addParagraph_inv (maxChunkSize : Nat) :
    ∀ (paragraphs : List (List Char)) (st : PSt),
      (∀ p ∈ paragraphs, ∀ c ∈ p, c.utf8Size ≤ maxChunkSize) →
      (∀ ch ∈ st.chunks, utf8Len ch ≤ maxChunkSize) →
      st.curSize = utf8Len (joinNL st.cur) →
      (st.cur ≠ [] → st.curSize ≤ maxChunkSize) →
      (∀ ch ∈ (paragraphs.foldl (addParagraph maxChunkSize) st).chunks,
          utf8Len ch ≤ maxChunkSize) ∧
        (paragraphs.foldl (addParagraph maxChunkSize) st).curSize =
          utf8Len (joinNL (paragraphs.foldl (addParagraph maxChunkSize) st).cur) ∧
        ((paragraphs.foldl (addParagraph maxChunkSize) st).cur ≠ [] →
          (paragraphs.foldl (addParagraph maxChunkSize) st).curSize ≤ maxChunkSize) := by
  intro paragraphs
  induction paragraphs with
  | nil => intro st _ h1 h2 h3; exact ⟨h1, h2, h3⟩
  | cons p rest ih =>
    intro st hp h1 h2 h3
    rw [List.foldl_cons]
    obtain ⟨g1, g2, g3⟩ := addParagraph_inv maxChunkSize st p (hp p (by simp)) h1 h2 h3
    exact ih (addParagraph maxChunkSize st p) (fun x hx => hp x (by simp [hx])) g1 g2 g3

theorem splitOnCharAux_mem (sep : Char) :
    ∀ (t acc piece : List Char), piece ∈ splitOnCharAux sep acc t →
      ∀ d ∈ piece, d ∈ acc.reverse ++ t := by
  intro t
  induction t with
  | nil =>
    intro acc piece hp d hd
    rw [splitOnCharAux] at hp
    rcases List.mem_singleton.mp hp with rfl
    simpa using hd
  | cons c rest ih =>
    intro acc piece hp d hd
    rw [splitOnCharAux] at hp
    by_cases hc : c = sep
    · rw [if_pos hc] at hp
      rcases List.mem_cons.mp hp with rfl | hp'
      · have := hd
        simp only [List.mem_append]
        left
        exact hd
      · have := ih [] piece hp' d hd
        simp at this
        simp [this]
    · rw [if_neg hc] at hp
      have := ih (c :: acc) piece hp d hd
      simp at this ⊢
      tauto

theorem trimSpace_subset (t : List Char) : ∀ d ∈ trimSpace t, d ∈ t := by
  intro d hd
  rw [trimSpace] at hd
  rw [List.mem_reverse] at hd
  have h1 : d ∈ (t.dropWhile goIsSpace).reverse :=
    (List.dropWhile_sublist goIsSpace).mem hd
  rw [List.mem_reverse] at h1
  exact (List.dropWhile_sublist goIsSpace).mem h1

theorem paragraphSplitText_bounded (maxChunkSize : Nat) (text : List Char)
    (hrunes : ∀ c ∈ text, c.utf8Size ≤ maxChunkSize) :
    ∀ ch ∈ paragraphSplitText maxChunkSize text, utf8Len ch ≤ maxChunkSize := by
  rw [paragraphSplitText]
  by_cases hemp : text.isEmpty
  · rw [if_pos hemp]; simp
  · rw [if_neg hemp]
    set paragraphs := ((splitOnChar '\n' text).map trimSpace).filter
      (fun p => ¬ p.isEmpty) with hpara
    by_cases hpemp : paragraphs.isEmpty
    · rw [if_pos hpemp]; simp
    · rw [if_neg hpemp]
      have hpchars : ∀ p ∈ paragraphs, ∀ c ∈ p, c.utf8Size ≤ maxChunkSize := by
        intro p hp c hc
        rw [hpara] at hp
        rcases List.mem_filter.mp hp with ⟨hp1, -⟩
        rcases List.mem_map.mp hp1 with ⟨p0, hp0, rfl⟩
        have hc0 : c ∈ p0 := trimSpace_subset p0 c hc
        have hct : c ∈ text := by
          have := splitOnCharAux_mem '\n' text [] p0 hp0 c hc0
          simpa using this
        exact hrunes c hct
      obtain ⟨g1, g2, g3⟩ := foldl_addParagraph_inv maxChunkSize paragraphs ⟨[], [], 0⟩
        hpchars (by simp) (by simp [joinNL, utf8Len]) (by simp)
      by_cases hcuremp : (paragraphs.foldl (addParagraph maxChunkSize) ⟨[], [], 0⟩).cur.isEmpty
      · rw [if_pos hcuremp]
        exact g1
      · rw [if_neg hcuremp]
        intro ch hchm
        rcases List.mem_append.mp hchm with hc | hc
        · exact g1 ch hc
        · rcases List.mem_singleton.mp hc with rfl
          rw [← g2]
          exact g3 (by simpa [List.isEmpty_iff] using hcuremp)

/-! ### Characterizing the overlap seed and the eviction -/

theorem overlapWalk_shape (ov : Nat) :
    ∀ (rl acc : List BufItem) (accLen : Nat),
      ∃ j, (overlapWalk ov rl acc accLen).1 = (rl.take j).reverse ++ acc := by
  intro rl
  induction rl with
  | nil => intro acc accLen; exact ⟨0, rfl⟩
  | cons i rest ih =>
    intro acc accLen
    rw [overlapWalk]
    split
    · obtain ⟨j, hj⟩ := ih (i :: acc) (accLen + i.len)
      refine ⟨j + 1, ?_⟩
      rw [hj, List.take_succ_cons, List.reverse_cons, List.append_assoc]
      simp
    · exact ⟨0, by simp⟩

theorem overlapWalk_budget (ov : Nat) :
    ∀ (rl acc : List BufItem) (accLen : Nat), accLen ≤ ov →
      (overlapWalk ov rl acc accLen).2 ≤ ov := by
  intro rl
  induction rl with
  | nil => intro acc accLen h; exact h
  | cons i rest ih =>
    intro acc accLen h
    rw [overlapWalk]
    split
    · rename_i hfit
      exact ih (i :: acc) (accLen + i.len) hfit
    · exact h

theorem overlapWalk_maximal (ov : Nat) :
    ∀ (rl acc : List BufItem) (accLen : Nat),
      (overlapWalk ov rl acc accLen).1 ≠ rl.reverse ++ acc →
      ∃ i ∈ rl, (overlapWalk ov rl acc accLen).2 + i.len > ov := by
  intro rl
  induction rl with
  | nil =>
    intro acc accLen h
    exact absurd rfl h
  | cons i rest ih =>
    intro acc accLen h
    rw [overlapWalk] at h ⊢
    by_cases hfit : accLen + i.len ≤ ov
    · rw [if_pos hfit] at h ⊢
      have hne : (overlapWalk ov rest (i :: acc) (accLen + i.len)).1 ≠
          rest.reverse ++ (i :: acc) := by
        intro heq
        apply h
        rw [heq]
        simp
      obtain ⟨x, hx, hgt⟩ := ih (i :: acc) (accLen + i.len) hne
      exact ⟨x, by simp [hx], hgt⟩
    · rw [if_neg hfit] at h ⊢
      exact ⟨i, by simp, by omega⟩

theorem overlapSeed_suffix (ov : Nat) (items : List BufItem) :
    (overlapSeed ov items).1 <:+ items := by
  obtain ⟨j, hj⟩ := overlapWalk_shape ov items.reverse [] 0
  rw [overlapSeed, hj, List.append_nil]
  refine ⟨(items.reverse.drop j).reverse, ?_⟩
  have := congrArg List.reverse (List.take_append_drop j items.reverse)
  rw [List.reverse_append, List.reverse_reverse] at this
  exact this

theorem overlapSeed_budget (ov : Nat) (items : List BufItem) :
    sumLens (overlapSeed ov items).1 ≤ ov := by
  rw [← overlapSeed_sum]
  exact overlapWalk_budget ov items.reverse [] 0 (Nat.zero_le _)

theorem overlapSeed_maximal (ov : Nat) (items : List BufItem)
    (h : (overlapSeed ov items).1 ≠ items) :
    ∃ i ∈ items, sumLens (overlapSeed ov items).1 + i.len > ov := by
  have hne : (overlapWalk ov items.reverse [] 0).1 ≠ items.reverse.reverse ++ [] := by
    simpa [overlapSeed] using h
  obtain ⟨i, hi, hgt⟩ := overlapWalk_maximal ov items.reverse [] 0 hne
  refine ⟨i, List.mem_reverse.mp hi, ?_⟩
  rw [← overlapSeed_sum]
  exact hgt

theorem evictFront_drop (cs size : Nat) :
    ∀ (items : List BufItem) (curLen : Nat), curLen = sumLens items →
      ∃ k, (evictFront cs size items curLen).1 = items.drop k ∧
        (evictFront cs size items curLen).2 = sumLens (items.drop k) ∧
        (k = 0 ∨ sumLens (items.drop (k - 1)) + size > cs) := by
  intro items
  induction items with
  | nil =>
    intro curLen h
    rw [evictFront]
    exact ⟨0, by simp, by simpa using h, Or.inl rfl⟩
  | cons i rest ih =>
    intro curLen h
    rw [evictFront]
    split
    · rename_i hgt
      have hrest : curLen - i.len = sumLens rest := by
        simp [sumLens] at h ⊢
        omega
      obtain ⟨k, h1, h2, h3⟩ := ih (curLen - i.len) hrest
      refine ⟨k + 1, by simpa using h1, by simpa using h2, Or.inr ?_⟩
      simp only [Nat.add_sub_cancel]
      rcases h3 with rfl | hjust
      · simp only [List.drop_zero]
        have hs : sumLens (i :: rest) = i.len + sumLens rest := by simp [sumLens]
        simp [sumLens] at h
        omega
      · cases k with
        | zero =>
          simp only [List.drop_zero]
          simp only [Nat.zero_sub, List.drop_zero] at hjust
          have hs : sumLens (i :: rest) = i.len + sumLens rest := by simp [sumLens]
          omega
        | succ j =>
          rw [List.drop_succ_cons]
          simpa using hjust
    · exact ⟨0, rfl, by simpa using h, Or.inl rfl⟩

/-! ### The overlap relation between consecutive merged chunks -/

theorem mergeFuel_chain (cs ov : Nat) :
    ∀ (fuel : Nat) (splits : List TextSplit) (chunks : List (List BufItem))
      (cur : List BufItem) (curLen : Nat) (newC : Bool) (out : List (List BufItem)),
      curLen = sumLens cur →
      List.Chain' (overlapRel cs ov) chunks →
      (chunks = [] → newC = true → cur = []) →
      (∀ last, chunks.getLast? = some last →
        (newC = true → cur = (overlapSeed ov last).1) ∧
        (newC = false → overlapRel cs ov last cur)) →
      mergeFuel cs ov fuel chunks cur curLen newC splits = some (.ok out) →
      List.Chain' (overlapRel cs ov) out := by
  have final : ∀ (chunks : List (List BufItem)) (cur : List BufItem) (newC : Bool)
      (out : List (List BufItem)),
      List.Chain' (overlapRel cs ov) chunks →
      (∀ last, chunks.getLast? = some last →
        (newC = false → overlapRel cs ov last cur)) →
      (if newC = true then chunks else chunks ++ [cur]) = out →
      List.Chain' (overlapRel cs ov) out := by
    intro chunks cur newC out hchain hlast hout
    cases newC with
    | true => rw [if_pos rfl] at hout; subst hout; exact hchain
    | false =>
      rw [if_neg (by simp)] at hout
      subst hout
      refine hchain.append (List.chain'_singleton cur) ?_
      intro x hx y hy
      rcases List.mem_singleton.mp (by simpa using hy) with rfl
      exact (hlast x (by simpa using hx)) rfl
  intro fuel
  induction fuel with
  | zero =>
    intro splits chunks cur curLen newC out hsum hchain hempty hlast h
    cases splits with
    | nil =>
      rw [mergeFuel] at h
      simp only [Option.some.injEq, MergeResult.ok.injEq] at h
      exact final chunks cur newC out hchain (fun l hl => (hlast l hl).2) h
    | cons s rest => rw [mergeFuel] at h; simp at h
  | succ n ih =>
    intro splits chunks cur curLen newC out hsum hchain hempty hlast h
    cases splits with
    | nil =>
      rw [mergeFuel] at h
      simp only [Option.some.injEq, MergeResult.ok.injEq] at h
      exact final chunks cur newC out hchain (fun l hl => (hlast l hl).2) h
    | cons s rest =>
      rw [mergeFuel] at h
      by_cases h1 : s.tokenSize > cs
      · rw [if_pos h1] at h; simp at h
      · rw [if_neg h1] at h
        by_cases h2 : curLen + s.tokenSize > cs ∧ newC = false
        · rw [if_pos h2] at h
          refine ih (s :: rest) (chunks ++ [cur]) (overlapSeed ov cur).1
            (overlapSeed ov cur).2 true out (overlapSeed_sum ov cur) ?_ (by simp) ?_ h
          · refine hchain.append (List.chain'_singleton cur) ?_
            intro x hx y hy
            rcases List.mem_singleton.mp (by simpa using hy) with rfl
            exact ((hlast x (by simpa using hx)).2) h2.2
          · intro last hl
            rw [List.getLast?_concat chunks] at hl
            injection hl with hl
            subst hl
            exact ⟨fun _ => rfl, fun hf => by cases hf⟩
        · rw [if_neg h2] at h
          by_cases hcond : newC = true ∧ curLen + s.tokenSize > cs
          · rw [if_pos hcond] at h
            obtain ⟨hEsum, hEmem, hEpost⟩ := evictFront_spec cs s.tokenSize cur curLen hsum
            have hEfits : (evictFront cs s.tokenSize cur curLen).2 + s.tokenSize ≤ cs := by
              rcases hEpost with hemp | hle
              · rw [hEsum, hemp]
                simp [sumLens]
                omega
              · exact hle
            rw [if_pos (Or.inr (Or.inl hEfits))] at h
            obtain ⟨k, hk1, hk2, hk3⟩ := evictFront_drop cs s.tokenSize cur curLen hsum
            cases hgl : chunks.getLast? with
            | none =>
              have hchempty : chunks = [] := List.getLast?_eq_none_iff.mp hgl
              have hcurempty : cur = [] := hempty hchempty hcond.1
              refine ih rest chunks
                ((evictFront cs s.tokenSize cur curLen).1 ++ [⟨s.text, s.tokenSize⟩])
                ((evictFront cs s.tokenSize cur curLen).2 + s.tokenSize) false out
                ?_ hchain ?_ ?_ h
              · simp [sumLens, hEsum]
              · intro _ hf; cases hf
              · intro last hl
                rw [hchempty] at hl
                simp at hl
            | some last =>
              have hcurseed : cur = (overlapSeed ov last).1 := (hlast last hgl).1 hcond.1
              refine ih rest chunks
                ((evictFront cs s.tokenSize cur curLen).1 ++ [⟨s.text, s.tokenSize⟩])
                ((evictFront cs s.tokenSize cur curLen).2 + s.tokenSize) false out
                ?_ hchain ?_ ?_ h
              · simp [sumLens, hEsum]
              · intro hc; rw [hc] at hgl; simp at hgl
              · intro last' hl'
                rw [hgl] at hl'
                injection hl' with hl'
                subst hl'
                constructor
                · intro hf; exact absurd hf (by decide)
                · intro _
                  refine ⟨k, ⟨s.text, s.tokenSize⟩, [], ?_, ?_⟩
                  · rw [hk1, hcurseed]
                  · rcases hk3 with rfl | hjust
                    · exact Or.inl rfl
                    · rw [hcurseed] at hjust
                      exact Or.inr hjust
          · rw [if_neg hcond] at h
            have hfits : curLen + s.tokenSize ≤ cs := by
              by_contra hlt
              rcases Bool.eq_false_or_eq_true newC with hbt | hbf
              · exact hcond ⟨hbt, by omega⟩
              · exact h2 ⟨by omega, hbf⟩
            rw [if_pos (Or.inr (Or.inl hfits))] at h
            refine ih rest chunks (cur ++ [⟨s.text, s.tokenSize⟩])
              (curLen + s.tokenSize) false out ?_ hchain ?_ ?_ h
            · simp [sumLens] at hsum ⊢
              omega
            · intro _ hf; cases hf
            · intro last hl
              constructor
              · intro hf; exact absurd hf (by decide)
              · intro _
                rcases Bool.eq_false_or_eq_true newC with hbt | hbf
                · have hcurseed : cur = (overlapSeed ov last).1 := (hlast last hl).1 hbt
                  exact ⟨0, ⟨s.text, s.tokenSize⟩, [], by rw [hcurseed]; simp, Or.inl rfl⟩
                · obtain ⟨k, a0, ap, hb, hjust⟩ := (hlast last hl).2 hbf
                  exact ⟨k, a0, ap ++ [⟨s.text, s.tokenSize⟩],
                    by rw [hb]; simp, hjust⟩

end Lemmas

section ClaimTheorems

/-- C3: for every size measure and chunk size, whenever the recursive
splitter `SentenceSplitter.split` returns (models as: the fuel did not run
out), concatenating the texts of the returned leaf fragments in order
yields exactly the original input — no characters lost or duplicated. -/
theorem C3_split_reconstruction (measure : List Char → Nat) (chunkSize fuel : Nat)
    (text : List Char) (leaves : List TextSplit)
    (h : splitFuel measure chunkSize fuel text = some leaves) :
    (leaves.map TextSplit.text).flatten = text :=
  splitFuel_flatten measure chunkSize fuel text leaves h

/-- Witness for C3 at a concrete input: splitting `"a b"` with the
default whitespace measure and chunk size 1 yields the leaves
`["a ", "b"]`, which concatenate back to `"a b"`. -/
theorem C3_split_reconstruction_witness :
    (([⟨['a', ' '], false, 1⟩, ⟨['b'], false, 1⟩] : List TextSplit).map
      TextSplit.text).flatten = ['a', ' ', 'b'] :=
  C3_split_reconstruction fieldsCount 1 4 ['a', ' ', 'b']
    [⟨['a', ' '], false, 1⟩, ⟨['b'], false, 1⟩] (by decide)

/-- C6: `SentenceSplitter.SplitText` on the empty string returns the
one-element sequence containing the empty string, for every measure,
chunk size and overlap — the empty chunk is not pruned in this case
(`sentence_splitter.go` lines 101-104 return before post-processing). -/
theorem C6_empty_input (measure : List Char → Nat) (chunkSize chunkOverlap : Nat) :
    splitText measure chunkSize chunkOverlap [] = some [[]] := rfl

/-- C2 (code bug): with a tokenizer that assigns size 2 to a single
character and chunk size 1, the recursive `split` never terminates — for
every recursion depth it again reaches the same one-character fragment
(the character-level fallback returns the fragment itself, `split` recurses
on it unchanged) — so `SplitText` neither returns nor reaches the
oversized-leaf guard in `merge` (the `panic` at `sentence_splitter.go`
line 185, the code's stand-in for the spec's ChunkingInvariantError). -/
theorem C2_invariant_error_never_raised :
    (∀ fuel : Nat, splitFuel doubleCharMeasure 1 fuel ['a'] = none) ∧
      splitText doubleCharMeasure 1 0 ['a'] = none := by
  constructor
  · intro fuel
    induction fuel with
    | zero => rfl
    | succ n ih =>
      rw [splitFuel]
      rw [if_neg (by decide)]
      have hg : getSplitsByFns ['a'] = ([['a']], false) := by decide
      rw [hg]
      rw [splitPieces]
      rw [if_neg (by decide)]
      rw [ih]
      rfl
  · have h2 : splitFuel doubleCharMeasure 1 (splitFuelBound ['a']) ['a'] = none := by decide
    simp [splitText, h2]

/-- C4 counterexample: with chunk size 2, overlap 0 and the default
whitespace tokenizer, `SplitText "a b c"` returns `["a b", "c"]`; no
non-empty suffix of `"a b"` is a prefix of `"c"` (so the first disjunct of
the claim fails), yet the candidate overlap — the closed chunk's last leaf
`"b "` (1 unit) — together with the next unit `"c"` (1 unit) would have fit
within max_size 2, so the overlap was not "dropped because including it
would have prevented the next unit from fitting": it was skipped only
because overlap_size 0 cannot hold any leaf, a case the claim's
disjunction does not cover. -/
theorem C4_cex_overlap_dropped_by_budget :
    splitText fieldsCount 2 0 ['a', ' ', 'b', ' ', 'c'] =
        some [['a', ' ', 'b'], ['c']] ∧
      (∀ o ∈ (['a', ' ', 'b'] : List Char).tails, o ≠ [] → ¬ o <+: ['c']) ∧
      fieldsCount ['b', ' '] + fieldsCount ['c'] ≤ 2 :=
  ⟨by decide, by decide, by decide⟩

/-- C4 as amended, at the merge level (before chunk strings are trimmed),
with chunks viewed as their leaf (buffer-item) sequences.  (1) Consecutive
chunks `a`, `b` emitted by the merge loop satisfy `overlapRel`: `b` is
`a`'s overlap seed with `k` leading leaves evicted followed by at least
one appended leaf, and `k > 0` is justified only by the first appended
leaf not fitting max_size with one eviction fewer.  (2) The overlap seed
of a chunk is a suffix of it, its sizes sum to at most overlap_size, and
it is maximal: when it is not the whole chunk, some leaf of the chunk
would overflow the overlap budget if added.  Consequently each next chunk
begins with a suffix of its predecessor bounded by overlap_size; that
suffix can be empty either because of eviction (forced by max_size) or —
the case the original claim omits — because the overlap budget cannot hold
even the closed chunk's last leaf (e.g. overlap_size 0). -/
theorem C4_overlap_structure :
    (∀ (chunkSize chunkOverlap : Nat) (splits : List TextSplit)
        (out : List (List BufItem)),
      mergeFuel chunkSize chunkOverlap (mergeFuelBound splits) [] [] 0 true splits =
        some (.ok out) →
      List.Chain' (overlapRel chunkSize chunkOverlap) out) ∧
    (∀ (chunkOverlap : Nat) (items : List BufItem),
      (overlapSeed chunkOverlap items).1 <:+ items ∧
      sumLens (overlapSeed chunkOverlap items).1 ≤ chunkOverlap ∧
      ((overlapSeed chunkOverlap items).1 ≠ items →
        ∃ i ∈ items, sumLens (overlapSeed chunkOverlap items).1 + i.len > chunkOverlap)) :=
  ⟨fun cs ov splits out h =>
      mergeFuel_chain cs ov (mergeFuelBound splits) splits [] [] 0 true out rfl
        (List.chain'_nil) (fun _ _ => rfl) (fun last hl => by simp at hl) h,
   fun ov items =>
      ⟨overlapSeed_suffix ov items, overlapSeed_budget ov items,
       overlapSeed_maximal ov items⟩⟩

/-- Witness for C4 (amended) at a concrete run: merging three unit-size
leaves `"a ", "b ", "c"` with chunk size 2 and overlap 1 produces the
chunks `["a ", "b "]` and `["b ", "c"]`, which satisfy the overlap
relation (the second chunk starts with the seed `["b "]` of the first). -/
theorem C4_overlap_structure_witness :
    List.Chain' (overlapRel 2 1)
      [[⟨['a', ' '], 1⟩, ⟨['b', ' '], 1⟩], [⟨['b', ' '], 1⟩, ⟨['c'], 1⟩]] :=
  C4_overlap_structure.1 2 1
    [⟨['a', ' '], false, 1⟩, ⟨['b', ' '], false, 1⟩, ⟨['c'], false, 1⟩]
    [[⟨['a', ' '], 1⟩, ⟨['b', ' '], 1⟩], [⟨['b', ' '], 1⟩, ⟨['c'], 1⟩]]
    (by decide)

/-- C5 counterexample: the input `"\t\t"` measures 0 ≤ max_size under the
default whitespace tokenizer, yet `SplitText` returns the empty sequence —
not one chunk equal to the trimmed input — because the single merged chunk
trims to empty and is pruned by post-processing. -/
theorem C5_cex_whitespace_input :
    fieldsCount ['\t', '\t'] ≤ 1024 ∧
      splitText fieldsCount 1024 200 ['\t', '\t'] = some [] ∧
      ([] : List (List Char)) ≠ [trimSpace ['\t', '\t']] := by
  refine ⟨by decide, by decide, by decide⟩

/-- C5 as amended: for every measure, chunk size, overlap and input whose
measured size is at most the chunk size **and whose whitespace-trimmed form
is non-empty**, `SplitText` returns exactly one chunk, equal to the
whitespace-trimmed input.  (The original claim fails only on non-empty
inputs that trim to empty, which post-processing prunes to zero chunks.) -/
theorem C5_single_chunk (measure : List Char → Nat) (chunkSize chunkOverlap : Nat)
    (text : List Char) (hfit : measure text ≤ chunkSize)
    (htrim : trimSpace text ≠ []) :
    splitText measure chunkSize chunkOverlap text = some [trimSpace text] := by
  have hne : text ≠ [] := by
    intro he
    subst he
    exact htrim rfl
  rw [splitText_single_leaf measure chunkSize chunkOverlap text hne hfit]
  simp [postprocessChunks, List.isEmpty_iff, htrim]

/-- Witness for C5 (amended) at a concrete input: `"hi "` fits in one
chunk and comes back trimmed. -/
theorem C5_single_chunk_witness :
    splitText fieldsCount 1024 200 ['h', 'i', ' '] = some [['h', 'i']] := by
  have h := C5_single_chunk fieldsCount 1024 200 ['h', 'i', ' ']
    (by decide) (by decide)
  simpa using h

/-- C10: every non-empty input made only of whitespace measures 0 under
the default whitespace tokenizer, fits in a single merged chunk, and that
chunk trims to empty and is dropped by post-processing — `SplitText`
returns zero chunks. -/
theorem C10_whitespace_only_empty_result (chunkSize chunkOverlap : Nat)
    (text : List Char) (hne : text ≠ []) (hsp : ∀ c ∈ text, goIsSpace c) :
    splitText fieldsCount chunkSize chunkOverlap text = some [] := by
  have hfit : fieldsCount text ≤ chunkSize := by
    rw [fieldsCount, fieldsCountAux_all_space text hsp true]
    exact Nat.zero_le _
  rw [splitText_single_leaf fieldsCount chunkSize chunkOverlap text hne hfit]
  simp [postprocessChunks, trimSpace_all_space text hsp]

/-- Witness for C10 at a concrete input: a single blank returns zero
chunks. -/
theorem C10_whitespace_only_empty_result_witness :
    splitText fieldsCount 1024 200 [' '] = some [] :=
  C10_whitespace_only_empty_result 1024 200 [' '] (by decide) (by decide)

/-- C7 counterexample: a `SentenceSplitter` constructed with all-default
arguments (`chunkSize = 0`, `chunkOverlap = 0`, nil tokenizer) stores
overlap 0, not the stated default 200 — the constructor deliberately does
not default the overlap ("chunkOverlap can be 0. We do not default it if 0
is passed."). -/
theorem C7_cex_overlap_not_defaulted :
    (NewSentenceSplitter 0 0 none).ChunkOverlap = 0 ∧ (0 : Int) ≠ 200 := by
  exact ⟨rfl, by decide⟩

/-- C7 as amended: the all-default construction yields max_size 1024 (the
stated default); the overlap is stored exactly as passed — 0 stays 0 — and
the declared constant `DefaultChunkOverlap = 200` takes effect only when
the caller passes it explicitly. -/
theorem C7_constructor_defaults :
    (NewSentenceSplitter 0 0 none).ChunkSize = 1024 ∧
      (NewSentenceSplitter 0 0 none).ChunkOverlap = 0 ∧
      DefaultChunkOverlap = 200 ∧
      (NewSentenceSplitter 0 DefaultChunkOverlap none).ChunkOverlap = 200 := by
  exact ⟨rfl, rfl, rfl, rfl⟩

/-- C1 counterexample.  Left: `ParagraphSplitter` with max byte size 1 on
`"é"` returns the chunk `"é"` of byte length 2 > 1 without raising any
error (a single code point wider than the maximum is forced through).
Right: `SentenceSplitter` with chunk size 2 and a non-sub-additive
tokenizer (`spikeMeasure`: single runes cost 1, anything longer costs 5)
on `"ab"` returns the chunk `"ab"` measuring 5 > 2: the character-level
fallback produces two fitting leaves whose merged chunk re-measures above
the maximum. -/
theorem C1_cex_oversized_chunk :
    (paragraphSplitText (NewParagraphSplitter 1) ['é'] = [['é']] ∧
      ¬ utf8Len ['é'] ≤ 1) ∧
    (splitText spikeMeasure 2 0 ['a', 'b'] = some [['a', 'b']] ∧
      ¬ spikeMeasure ['a', 'b'] ≤ 2) :=
  ⟨⟨by decide, by decide⟩, ⟨by decide, by decide⟩⟩

/-- C1 as amended.  Sentence splitter: for every **sub-additive,
trim-stable** size measure (both hold for the default whitespace
tokenizer), every chunk returned by `SplitText` on a non-empty input
measures at most the chunk size; the merge loop in fact bounds the sum of
each chunk's leaf sizes, which bounds the chunk's own measure only for
such measures.  Paragraph splitter: every returned chunk's byte length is
at most the maximum provided every single code point of the input fits the
maximum (a lone wider code point is forced through as an oversized chunk,
with no error raised). -/
theorem C1_chunk_sizes_bounded :
    (∀ (measure : List Char → Nat) (chunkSize chunkOverlap : Nat) (text : List Char)
        (chunks : List (List Char)),
      Subadditive measure → TrimStable measure → text ≠ [] →
      splitText measure chunkSize chunkOverlap text = some chunks →
      ∀ c ∈ chunks, measure c ≤ chunkSize) ∧
    (∀ (maxChunkSize : Nat) (text : List Char),
      (∀ c ∈ text, c.utf8Size ≤ maxChunkSize) →
      ∀ ch ∈ paragraphSplitText maxChunkSize text, utf8Len ch ≤ maxChunkSize) :=
  ⟨fun m cs ov text chunks hsub htrim hne h =>
      splitText_chunks_bounded m cs ov hsub htrim text hne chunks h,
   fun maxChunkSize text hrunes => paragraphSplitText_bounded maxChunkSize text hrunes⟩

/-- Witness for C1 (amended) at concrete inputs: splitting `"a b c"` with
the default whitespace tokenizer at chunk size 2 yields `"a b"` measuring
2 ≤ 2, and the paragraph splitter at max 12 on `"Para1\nPara2\nPara3"`
yields `"Para1\nPara2"` of byte length 11 ≤ 12. -/
theorem C1_chunk_sizes_bounded_witness :
    fieldsCount ['a', ' ', 'b'] ≤ 2 ∧
      utf8Len ['P', 'a', 'r', 'a', '1', '\n', 'P', 'a', 'r', 'a', '2'] ≤ 12 :=
  ⟨C1_chunk_sizes_bounded.1 fieldsCount 2 0 ['a', ' ', 'b', ' ', 'c']
      [['a', ' ', 'b'], ['c']] fieldsCount_subadditive fieldsCount_trimStable
      (by decide) (by decide) ['a', ' ', 'b'] (by decide),
   C1_chunk_sizes_bounded.2 12
      ['P', 'a', 'r', 'a', '1', '\n', 'P', 'a', 'r', 'a', '2', '\n',
        'P', 'a', 'r', 'a', '3'] (by decide)
      ['P', 'a', 'r', 'a', '1', '\n', 'P', 'a', 'r', 'a', '2'] (by decide)⟩

/-- C8: the paragraph chunker with max byte size 5 on `"1234567890"` (a
single oversized paragraph, no separators) returns exactly `"12345"`,
`"67890"`; and in general `splitOversizedParagraph` hard-splits a
paragraph at code-point boundaries into maximal byte-bounded pieces:
the pieces concatenate back to the paragraph (so cuts are at code-point
boundaries), each piece's byte length is at most the maximum whenever
every single code point fits it, and each piece is maximal — extending any
piece by the next piece's first code point would exceed the maximum. -/
theorem C8_paragraph_hard_split :
    paragraphSplitText (NewParagraphSplitter 5)
        ['1', '2', '3', '4', '5', '6', '7', '8', '9', '0'] =
      [['1', '2', '3', '4', '5'], ['6', '7', '8', '9', '0']] ∧
    ∀ (maxChunkSize : Nat) (p : List Char),
      (splitOversizedParagraph maxChunkSize p).flatten = p ∧
      ((∀ c ∈ p, c.utf8Size ≤ maxChunkSize) →
        ∀ piece ∈ splitOversizedParagraph maxChunkSize p, utf8Len piece ≤ maxChunkSize) ∧
      List.Chain'
        (fun a b => ∀ c, b.head? = some c → maxChunkSize < utf8Len a + c.utf8Size)
        (splitOversizedParagraph maxChunkSize p) :=
  ⟨by decide, splitOversizedParagraph_spec⟩

/-- Witness for C8's general part at a concrete input: the first piece of
the hard split of `"1234567890"` at max 5 is byte-bounded by 5. -/
theorem C8_paragraph_hard_split_witness :
    utf8Len ['1', '2', '3', '4', '5'] ≤ 5 :=
  ((C8_paragraph_hard_split.2 5
      ['1', '2', '3', '4', '5', '6', '7', '8', '9', '0']).2.1 (by decide))
    ['1', '2', '3', '4', '5'] (by decide)

/-- C9: the merge loop terminates on every finite sequence of leaves whose
sizes are at most the chunk size: fuel `2·(number of leaves) + 1` — one
unit per loop iteration — always suffices, because every iteration either
consumes a leaf or closes a chunk, and a close (which requires the
accumulator not to be freshly opened) is always immediately followed by an
append. -/
theorem C9_merge_terminates (chunkSize chunkOverlap : Nat) (splits : List TextSplit)
    (hsizes : ∀ s ∈ splits, s.tokenSize ≤ chunkSize) :
    (mergeFuel chunkSize chunkOverlap (mergeFuelBound splits) [] [] 0 true splits).isSome := by
  apply mergeFuel_isSome
  simp [mergeFuelBound]

/-- Witness for C9 at a concrete leaf sequence. -/
theorem C9_merge_terminates_witness :
    (mergeFuel 1 0 (mergeFuelBound [⟨['a'], true, 1⟩]) [] [] 0 true
      [⟨['a'], true, 1⟩]).isSome :=
  C9_merge_terminates 1 0 [⟨['a'], true, 1⟩] (by decide)

end ClaimTheorems

end AINexus
